import Mathlib

/-!
Verification of the power-tasks task engine (second revision of src/task.ts
and src/task-queue.ts) against its natural-language specification.

The TypeScript source is shallowly embedded: each relevant method of the
Task / TaskQueue classes is translated into a Lean function over an explicit
state record, and the asynchronous parts (timers, promise settlements, event
delivery) become labelled events of a small-step transition system whose
order an adversarial scheduler picks.  JavaScript values that the code tests
for truthiness are encoded as Nat (0 is the only falsy number) or String
("" for undefined / empty), and optional fields as Option.
-/

namespace PowerTasks

/-- Task status values, from the TaskStatus union type of task.ts. -/
inductive TStatus
  | idle | waiting | running | aborting | fulfilled | failed | aborted
  deriving DecidableEq, Repr

/-- Getter isFinished: fulfilled, failed or aborted. -/
def TStatus.isFinished : TStatus → Bool
  | .fulfilled => true
  | .failed => true
  | .aborted => true
  | _ => false

/-- Getter isStarted of the second revision: status is not idle and not finished. -/
def TStatus.isStarted (s : TStatus) : Bool := s ≠ TStatus.idle && !s.isFinished

/-- JavaScript truthiness of an optional number-encoded value: absent and 0 are falsy. -/
def jsTruthy : Option Nat → Bool
  | none => false
  | some v => v != 0

/-- The fields of a task touched by Task#update: status, message, error, result,
plus the bookkeeping the finish branch clears (abort timer, run context). -/
structure UState where
  status : TStatus
  message : String
  error : Option Nat
  result : Option Nat
  hasCtx : Bool
  abortTimer : Bool
  deriving DecidableEq, Repr

/-- TaskUpdateValues: the argument of Task#update. -/
structure UProps where
  status : Option TStatus := none
  message : String := ""
  error : Option Nat := none
  result : Option Nat := none
  waitingFor : Bool := false
  deriving DecidableEq, Repr

/-- The events one call of Task#update emits (delivery itself is asynchronous). -/
structure Emits where
  startEvt : Bool := false
  statusChange : Bool := false
  runEvt : Bool := false
  updateEvt : Bool := false
  updateRecursive : Bool := false
  errorEvt : Bool := false
  finishEvt : Bool := false
  triggerPulse : Bool := false
  deriving DecidableEq, Repr

/-- Task#update of the second revision (task.ts lines 1419-1462): write each
property that is truthy and different, collect the changed keys, emit events,
and on a transition into a finished status clear the abort timer, drop the run
context, emit finish and trigger a pulse on the old context. -/
def applyUpdate (s : UState) (p : UProps) : UState × Emits :=
  let oldFinished := s.status.isFinished
  let oldStarted := s.status.isStarted
  let statusKey : Bool := match p.status with
    | some st => decide (st ≠ s.status)
    | none => false
  let newStatus := p.status.getD s.status
  let messageKey : Bool := p.message ≠ "" && p.message ≠ s.message
  let newMessage := if messageKey then p.message else s.message
  let errorKey : Bool := jsTruthy p.error && p.error ≠ s.error
  let newError := if errorKey then p.error else s.error
  let resultKey : Bool := jsTruthy p.result && p.result ≠ s.result
  let newResult := if resultKey then p.result else s.result
  let anyKey := statusKey || messageKey || errorKey || resultKey || p.waitingFor
  if anyKey then
    let finishBranch := newStatus.isFinished && !oldFinished
    ({ status := newStatus, message := newMessage, error := newError, result := newResult,
       hasCtx := if finishBranch then false else s.hasCtx,
       abortTimer := if finishBranch then false else s.abortTimer },
     { startEvt := statusKey && !oldStarted
       statusChange := statusKey
       runEvt := statusKey && decide (newStatus = TStatus.running)
       updateEvt := true
       updateRecursive := true
       errorEvt := finishBranch && jsTruthy newError
       finishEvt := finishBranch
       triggerPulse := finishBranch && s.hasCtx })
  else (s, {})

example :
    (applyUpdate
      { status := .running, message := "Running", error := none, result := none,
        hasCtx := true, abortTimer := false }
      { status := some .fulfilled, message := "Task completed", result := some 5 }).1.status
      = TStatus.fulfilled := by decide

example :
    (applyUpdate
      { status := .aborted, message := "aborted", error := none, result := none,
        hasCtx := false, abortTimer := false }
      { status := some .fulfilled, message := "Task completed", result := some 5 }).1.status
      = TStatus.fulfilled := by decide

theorem au_status_some (s : UState) (p : UProps) (st : TStatus) (h : p.status = some st) :
    (applyUpdate s p).1.status = st := by
  unfold applyUpdate
  by_cases hst : st = s.status <;> simp [h, hst] <;> split <;> simp [hst]

theorem au_status_none (s : UState) (p : UProps) (h : p.status = none) :
    (applyUpdate s p).1.status = s.status := by
  unfold applyUpdate
  simp [h]
  split <;> simp

theorem au_error_none (s : UState) (p : UProps) (h : p.error = none) :
    (applyUpdate s p).1.error = s.error := by
  unfold applyUpdate
  simp [h, jsTruthy]
  split <;> simp

theorem au_error_some (s : UState) (p : UProps) (e : Nat) (h : p.error = some e) (he : e ≠ 0) :
    (applyUpdate s p).1.error = some e := by
  unfold applyUpdate
  by_cases hs : s.error = some e
  · simp [h, hs, jsTruthy, he]
    split <;> simp [hs]
  · have hs2 : ¬ (some e = s.error) := fun hh => hs hh.symm
    simp [h, hs2, jsTruthy, he]

theorem au_result_none (s : UState) (p : UProps) (h : p.result = none) :
    (applyUpdate s p).1.result = s.result := by
  unfold applyUpdate
  simp [h, jsTruthy]
  split <;> simp

theorem au_result_some (s : UState) (p : UProps) (v : Nat) (h : p.result = some v) (hv : v ≠ 0) :
    (applyUpdate s p).1.result = some v := by
  unfold applyUpdate
  by_cases hs : s.result = some v
  · simp [h, hs, jsTruthy, hv]
    split <;> simp [hs]
  · have hs2 : ¬ (some v = s.result) := fun hh => hs hh.symm
    simp [h, hs2, jsTruthy, hv]

theorem au_result_zero (s : UState) (p : UProps) (h : p.result = some 0) :
    (applyUpdate s p).1.result = s.result := by
  unfold applyUpdate
  simp [h, jsTruthy]
  split <;> simp

theorem au_finish_char (s : UState) (p : UProps) :
    (applyUpdate s p).2.finishEvt
      = ((applyUpdate s p).1.status.isFinished && !s.status.isFinished) := by
  unfold applyUpdate
  cases hp : p.status <;> simp [hp] <;> split <;> simp

theorem au_hasCtx (s : UState) (p : UProps) :
    (applyUpdate s p).1.hasCtx = (s.hasCtx && !(applyUpdate s p).2.finishEvt) := by
  unfold applyUpdate
  cases hp : p.status <;> simp [hp] <;> split <;>
    cases s.hasCtx <;> simp [Bool.and_comm]

theorem au_abortTimer (s : UState) (p : UProps) :
    (applyUpdate s p).1.abortTimer = (s.abortTimer && !(applyUpdate s p).2.finishEvt) := by
  unfold applyUpdate
  cases hp : p.status <;> simp [hp] <;> split <;>
    cases s.abortTimer <;> simp [Bool.and_comm]

theorem au_triggerPulse (s : UState) (p : UProps) :
    (applyUpdate s p).2.triggerPulse = (s.hasCtx && (applyUpdate s p).2.finishEvt) := by
  unfold applyUpdate
  cases hp : p.status <;> simp [hp] <;> split <;> simp [Bool.and_comm]

/-!
## Lifecycle of a single task with no children

Events model the asynchronous pieces of abort(), start() and the pulse of a
task whose own function is its only work: the then-continuation of the child
abort cascade inside abort(), the abortTimeout timer, the settlement of the
task's own function, and a pulse triggered on the run context.  The scheduler
(the adversary) fires enabled events in any order.  executeDuration, which no
claim mentions, is not modelled.
-/

/-- The state of the task's own function. -/
inductive FnState
  | notStarted | pending | settled
  deriving DecidableEq, Repr

/-- A task with no children: the update-visible fields plus the abort
controller signal, membership in the context's executingTasks set, the
function state and the pending then-continuation of abort(). -/
structure LeafState where
  u : UState
  executing : Bool
  fn : FnState
  signalAborted : Bool
  cascadePending : Bool
  deriving DecidableEq, Repr

/-- A freshly constructed task: status idle, nothing set. -/
def leafInit : LeafState :=
  { u := { status := .idle, message := "", error := none, result := none,
           hasCtx := false, abortTimer := false },
    executing := false, fn := .notStarted, signalAborted := false, cascadePending := false }

/-- The events that can reach a task with no children. -/
inductive LEvent
  | startCall
  | pulseFire
  | abortCall
  | cascadeDone
  | timerFire
  | fnResolve (v : Nat)
  | fnReject (e : Nat) (abortErr : Bool)
  deriving DecidableEq, Repr

/-- An event is a settlement of the task's own function. -/
def LEvent.isSettle : LEvent → Bool
  | .fnResolve _ => true
  | .fnReject _ _ => true
  | _ => false

/-- The literal TaskUpdateValues records the task code passes to Task#update. -/
def pRunning : UProps := { status := some .running, message := "Running" }

/-- Update to aborted, as in abort(), the abort timer and the cascade continuation. -/
def pAborted : UProps := { status := some .aborted, message := "aborted" }

/-- Update to aborting, as at the top of abort(). -/
def pAborting : UProps := { status := some .aborting, message := "Aborting" }

/-- Update on resolution of the task's own function. -/
def pFulfilled (v : Nat) : UProps :=
  { status := some .fulfilled, message := "Task completed", result := some v }

/-- Update on rejection with an abort error. -/
def pAbortedErr (e : Nat) : UProps :=
  { status := some .aborted, error := some e, message := toString e }

/-- Update on rejection with an ordinary error. -/
def pFailedErr (e : Nat) : UProps :=
  { status := some .failed, error := some e, message := toString e }

/-- Task#pulse (task.ts lines 1341-1417) specialised to a task with no
childrenLeft: bail out if finished, aborting or already executing; otherwise,
when the executing set (here: this task alone) is below the concurrency
budget, set status running, join executingTasks and launch the function. -/
def leafPulse (conc : Nat) (s : LeafState) : LeafState × Emits :=
  if s.u.status.isFinished || s.u.status = TStatus.aborting || s.executing then (s, {})
  else if conc ≤ 0 then (s, {})
  else
    let r := applyUpdate s.u pRunning
    ({ s with u := r.1, executing := true, fn := .pending }, r.2)

/-- One labelled step of the lifecycle, each branch translated from task.ts:
start() (lines 1046-1074, childless), abort() (lines 1015-1044), the cascade
continuation and abort timer inside abort(), and the settle handlers of the
function launched in Task#pulse (lines 1391-1416). -/
def leafStep (conc : Nat) (s : LeafState) (ev : LEvent) : LeafState × Emits :=
  match ev with
  | .startCall =>
      -- start(): no-op when already started; otherwise attach a fresh context
      -- and, via the inner start and startChildren (no children), pulse.
      if s.u.status.isStarted then (s, {})
      else
        let s1 := { s with u := { s.u with hasCtx := true } }
        if s1.u.status.isFinished then (s1, {})
        else leafPulse conc s1
  | .pulseFire => leafPulse conc s
  | .abortCall =>
      if s.u.status.isFinished || s.u.status = TStatus.aborting then (s, {})
      else if !s.u.status.isStarted then
        let r := applyUpdate s.u pAborted
        ({ s with u := r.1 }, r.2)
      else
        -- options.abortTimeout || 30000 is always truthy, so the timer is armed.
        let r := applyUpdate s.u pAborting
        ({ s with u := { r.1 with abortTimer := true }, cascadePending := true }, r.2)
  | .cascadeDone =>
      if !s.cascadePending then (s, {})
      else
        let s1 := { s with cascadePending := false }
        if s1.u.status.isFinished then (s1, {})
        else if s1.executing then ({ s1 with signalAborted := true }, {})
        else
          let r := applyUpdate s1.u pAborted
          ({ s1 with u := r.1 }, r.2)
  | .timerFire =>
      if !s.u.abortTimer then (s, {})
      else
        let s1 := { s with u := { s.u with abortTimer := false } }
        let r := applyUpdate s1.u pAborted
        ({ s1 with u := r.1 }, r.2)
  | .fnResolve v =>
      if s.fn ≠ FnState.pending then (s, {})
      else
        let s1 := { s with fn := .settled, executing := false }
        let r := applyUpdate s1.u (pFulfilled v)
        ({ s1 with u := r.1 }, r.2)
  | .fnReject e abortErr =>
      if s.fn ≠ FnState.pending then (s, {})
      else
        let s1 := { s with fn := .settled, executing := false }
        if abortErr then
          let r := applyUpdate s1.u (pAbortedErr e)
          ({ s1 with u := r.1 }, r.2)
        else
          let r := applyUpdate s1.u (pFailedErr e)
          ({ s1 with u := r.1 }, r.2)

/-- Run a list of events from a state. -/
def leafRun (conc : Nat) (s : LeafState) : List LEvent → LeafState
  | [] => s
  | e :: evs => leafRun conc (leafStep conc s e).1 evs

/-- Number of finish events emitted along a run. -/
def leafFinishCount (conc : Nat) (s : LeafState) : List LEvent → Nat
  | [] => 0
  | e :: evs =>
      (if (leafStep conc s e).2.finishEvt then 1 else 0) +
        leafFinishCount conc (leafStep conc s e).1 evs

/-- A state the lifecycle can reach from a fresh task. -/
def LeafReachable (conc : Nat) (s : LeafState) : Prop :=
  ∃ evs, leafRun conc leafInit evs = s

example : (leafRun 1 leafInit [.startCall, .fnResolve 5]).u.status = TStatus.fulfilled := by decide

example : (leafRun 1 leafInit [.startCall, .abortCall, .timerFire]).u.status = TStatus.aborted := by
  decide

example :
    (leafRun 1 leafInit [.startCall, .abortCall, .timerFire, .fnResolve 7]).u.status
      = TStatus.fulfilled := by decide

theorem auP_running_status (u : UState) : (applyUpdate u pRunning).1.status = TStatus.running :=
  au_status_some u pRunning TStatus.running rfl

theorem auP_running_result (u : UState) : (applyUpdate u pRunning).1.result = u.result :=
  au_result_none u pRunning rfl

theorem auP_running_error (u : UState) : (applyUpdate u pRunning).1.error = u.error :=
  au_error_none u pRunning rfl

theorem auP_running_finish (u : UState) : (applyUpdate u pRunning).2.finishEvt = false := by
  rw [au_finish_char, auP_running_status]
  simp [TStatus.isFinished]

theorem auP_running_timer (u : UState) : (applyUpdate u pRunning).1.abortTimer = u.abortTimer := by
  rw [au_abortTimer, auP_running_finish]
  simp

theorem auP_aborted_status (u : UState) : (applyUpdate u pAborted).1.status = TStatus.aborted :=
  au_status_some u pAborted TStatus.aborted rfl

theorem auP_aborted_result (u : UState) : (applyUpdate u pAborted).1.result = u.result :=
  au_result_none u pAborted rfl

theorem auP_aborted_error (u : UState) : (applyUpdate u pAborted).1.error = u.error :=
  au_error_none u pAborted rfl

theorem auP_aborted_timer (u : UState) (h : u.status.isFinished = false) :
    (applyUpdate u pAborted).1.abortTimer = false := by
  rw [au_abortTimer, au_finish_char, auP_aborted_status, h]
  simp [TStatus.isFinished]

theorem auP_aborting_status (u : UState) : (applyUpdate u pAborting).1.status = TStatus.aborting :=
  au_status_some u pAborting TStatus.aborting rfl

theorem auP_aborting_result (u : UState) : (applyUpdate u pAborting).1.result = u.result :=
  au_result_none u pAborting rfl

theorem auP_aborting_error (u : UState) : (applyUpdate u pAborting).1.error = u.error :=
  au_error_none u pAborting rfl

theorem auP_fulfilled_status (u : UState) (v : Nat) :
    (applyUpdate u (pFulfilled v)).1.status = TStatus.fulfilled :=
  au_status_some u (pFulfilled v) TStatus.fulfilled rfl

theorem auP_fulfilled_error (u : UState) (v : Nat) :
    (applyUpdate u (pFulfilled v)).1.error = u.error :=
  au_error_none u (pFulfilled v) rfl

theorem auP_fulfilled_result (u : UState) (v : Nat) :
    (applyUpdate u (pFulfilled v)).1.result = if v = 0 then u.result else some v := by
  by_cases hv : v = 0
  · subst hv
    simp [au_result_zero u (pFulfilled 0) rfl]
  · simp [hv, au_result_some u (pFulfilled v) v rfl hv]

theorem auP_fulfilled_timer (u : UState) (v : Nat) (h : u.status.isFinished = false) :
    (applyUpdate u (pFulfilled v)).1.abortTimer = false := by
  rw [au_abortTimer, au_finish_char, auP_fulfilled_status, h]
  simp [TStatus.isFinished]

theorem auP_abortedErr_status (u : UState) (e : Nat) :
    (applyUpdate u (pAbortedErr e)).1.status = TStatus.aborted :=
  au_status_some u (pAbortedErr e) TStatus.aborted rfl

theorem auP_abortedErr_result (u : UState) (e : Nat) :
    (applyUpdate u (pAbortedErr e)).1.result = u.result :=
  au_result_none u (pAbortedErr e) rfl

theorem auP_failedErr_status (u : UState) (e : Nat) :
    (applyUpdate u (pFailedErr e)).1.status = TStatus.failed :=
  au_status_some u (pFailedErr e) TStatus.failed rfl

theorem auP_failedErr_result (u : UState) (e : Nat) :
    (applyUpdate u (pFailedErr e)).1.result = u.result :=
  au_result_none u (pFailedErr e) rfl

/-- Structural invariant of the leaf lifecycle, proved along every trace:
a result is only stored by a fulfilment; a finished task has no armed abort
timer; the function is pending exactly while the task sits in the context's
executingTasks set; a settled function means a finished status; a fulfilled
status means the function has settled; an idle task has an unstarted
function and no timer. -/
structure LeafInv (s : LeafState) : Prop where
  result_fulfilled : s.u.result.isSome = true → s.u.status = TStatus.fulfilled
  fin_timer : s.u.status.isFinished = true → s.u.abortTimer = false
  pending_exec : s.fn = FnState.pending ↔ s.executing = true
  settled_fin : s.fn = FnState.settled → s.u.status.isFinished = true
  fulfilled_settled : s.u.status = TStatus.fulfilled → s.fn = FnState.settled
  idle_fn : s.u.status = TStatus.idle → s.fn = FnState.notStarted ∧ s.u.abortTimer = false

theorem leafInv_init : LeafInv leafInit := by
  constructor <;> decide

theorem leafInv_pulse (conc : Nat) (s : LeafState) (hI : LeafInv s) :
    LeafInv (leafPulse conc s).1 := by
  unfold leafPulse
  split
  · exact hI
  split
  · exact hI
  rename_i hg _
  simp only [Bool.or_eq_true, decide_eq_true_eq, not_or] at hg
  obtain ⟨⟨hfin, _⟩, _⟩ := hg
  refine ⟨?_, ?_, ?_, ?_, ?_, ?_⟩ <;>
      simp only [auP_running_status, auP_running_result, auP_running_timer] <;>
      try simp [TStatus.isFinished]
  cases hres : s.u.result with
  | none => rfl
  | some v =>
      rw [hI.result_fulfilled (by rw [hres]; rfl)] at hfin
      exact absurd hfin (by decide)

theorem leafInv_step (conc : Nat) (s : LeafState) (e : LEvent) (hI : LeafInv s) :
    LeafInv (leafStep conc s e).1 := by
  obtain ⟨h1, h2, h3, h4, h5, h6⟩ := hI
  cases e with
  | startCall =>
      simp only [leafStep]
      split
      · exact ⟨h1, h2, h3, h4, h5, h6⟩
      split
      · exact ⟨h1, h2, h3, h4, h5, h6⟩
      · exact leafInv_pulse conc _ ⟨h1, h2, h3, h4, h5, h6⟩
  | pulseFire => exact leafInv_pulse conc s ⟨h1, h2, h3, h4, h5, h6⟩
  | abortCall =>
      simp only [leafStep]
      split
      · exact ⟨h1, h2, h3, h4, h5, h6⟩
      rename_i hg
      simp only [Bool.or_eq_true, decide_eq_true_eq, not_or] at hg
      obtain ⟨hfin, _⟩ := hg
      split
      · refine ⟨?_, ?_, h3, ?_, ?_, ?_⟩ <;>
          simp only [auP_aborted_status, auP_aborted_result]
        · intro hres
          rw [h1 hres] at hfin
          exact absurd rfl hfin
        · intro _
          rw [auP_aborted_timer s.u (by simpa using hfin)]
        · intro _
          decide
        · intro h
          exact absurd h (by decide)
        · intro h
          exact absurd h (by decide)
      · refine ⟨?_, ?_, h3, ?_, ?_, ?_⟩ <;>
          simp only [auP_aborting_status, auP_aborting_result]
        · intro hres
          rw [h1 hres] at hfin
          exact absurd rfl hfin
        · intro h
          exact absurd h (by decide)
        · intro hs
          exact absurd (h4 hs) hfin
        · intro h
          exact absurd h (by decide)
        · intro h
          exact absurd h (by decide)
  | cascadeDone =>
      simp only [leafStep]
      split
      · exact ⟨h1, h2, h3, h4, h5, h6⟩
      split
      · exact ⟨h1, h2, h3, h4, h5, h6⟩
      split
      · exact ⟨h1, h2, h3, h4, h5, h6⟩
      rename_i hfin _
      refine ⟨?_, ?_, h3, ?_, ?_, ?_⟩ <;>
        simp only [auP_aborted_status, auP_aborted_result]
      · intro hres
        rw [h1 hres] at hfin
        exact absurd rfl hfin
      · intro _
        rw [auP_aborted_timer _ (by simpa using hfin)]
      · intro _
        decide
      · intro h
        exact absurd h (by decide)
      · intro h
        exact absurd h (by decide)
  | timerFire =>
      simp only [leafStep]
      split
      · exact ⟨h1, h2, h3, h4, h5, h6⟩
      rename_i ht
      have htt : s.u.abortTimer = true := by
        cases hx : s.u.abortTimer
        · rw [hx] at ht
          exact absurd (by decide) ht
        · rfl
      have hfin : s.u.status.isFinished = false := by
        cases hx : s.u.status.isFinished
        · rfl
        · rw [h2 hx] at htt
          exact absurd htt (by decide)
      refine ⟨?_, ?_, h3, ?_, ?_, ?_⟩ <;>
        simp only [auP_aborted_status, auP_aborted_result]
      · intro hres
        rw [h1 hres] at hfin
        exact absurd hfin (by decide)
      · intro _
        rw [au_abortTimer]
        rfl
      · intro _
        decide
      · intro h
        exact absurd h (by decide)
      · intro h
        exact absurd h (by decide)
  | fnResolve v =>
      simp only [leafStep]
      split
      · exact ⟨h1, h2, h3, h4, h5, h6⟩
      rename_i hp
      have hpend : s.fn = FnState.pending := by
        by_cases hx : s.fn = FnState.pending
        · exact hx
        · exact absurd (by simpa using hx) (by simpa using hp)
      refine ⟨?_, ?_, ?_, ?_, ?_, ?_⟩ <;>
        simp only [auP_fulfilled_status]
      · intro _
        trivial
      · intro _
        by_cases hof : s.u.status.isFinished = true
        · rw [au_abortTimer]
          show (s.u.abortTimer && _) = false
          rw [h2 hof]
          rfl
        · exact auP_fulfilled_timer s.u v (by simpa using hof)
      · simp
      · intro _
        decide
      · intro _
        trivial
      · intro h
        exact absurd h (by decide)
  | fnReject e abortErr =>
      simp only [leafStep]
      split
      · exact ⟨h1, h2, h3, h4, h5, h6⟩
      rename_i hp
      have hpend : s.fn = FnState.pending := by
        by_cases hx : s.fn = FnState.pending
        · exact hx
        · exact absurd (by simpa using hx) (by simpa using hp)
      have hnotful : s.u.status ≠ TStatus.fulfilled := by
        intro hx
        rw [h5 hx] at hpend
        exact absurd hpend (by decide)
      split
      · refine ⟨?_, ?_, ?_, ?_, ?_, ?_⟩ <;>
          simp only [auP_abortedErr_status, auP_abortedErr_result]
        · intro hres
          exact absurd (h1 hres) hnotful
        · intro _
          by_cases hof : s.u.status.isFinished = true
          · rw [au_abortTimer]
            show (s.u.abortTimer && _) = false
            rw [h2 hof]
            rfl
          · rw [au_abortTimer, au_finish_char, auP_abortedErr_status]
            cases hx : s.u.status.isFinished
            · simp [hx, TStatus.isFinished]
            · rw [h2 hx]
              rfl
        · simp
        · intro _
          decide
        · intro h
          exact absurd h (by decide)
        · intro h
          exact absurd h (by decide)
      · refine ⟨?_, ?_, ?_, ?_, ?_, ?_⟩ <;>
          simp only [auP_failedErr_status, auP_failedErr_result]
        · intro hres
          exact absurd (h1 hres) hnotful
        · intro _
          by_cases hof : s.u.status.isFinished = true
          · rw [au_abortTimer]
            show (s.u.abortTimer && _) = false
            rw [h2 hof]
            rfl
          · rw [au_abortTimer, au_finish_char, auP_failedErr_status]
            cases hx : s.u.status.isFinished
            · simp [hx, TStatus.isFinished]
            · rw [h2 hx]
              rfl
        · simp
        · intro _
          decide
        · intro h
          exact absurd h (by decide)
        · intro h
          exact absurd h (by decide)

theorem leafInv_run (conc : Nat) (evs : List LEvent) (s : LeafState) (hI : LeafInv s) :
    LeafInv (leafRun conc s evs) := by
  induction evs generalizing s with
  | nil => exact hI
  | cons e evs ih => exact ih _ (leafInv_step conc s e hI)

theorem leafInv_reachable (conc : Nat) (s : LeafState) (h : LeafReachable conc s) : LeafInv s := by
  obtain ⟨evs, rfl⟩ := h
  exact leafInv_run conc evs leafInit leafInv_init

theorem leafStep_fin_mono (conc : Nat) (s : LeafState) (e : LEvent)
    (h : s.u.status.isFinished = true) :
    (leafStep conc s e).1.u.status.isFinished = true := by
  cases e with
  | startCall =>
      simp only [leafStep]
      split
      · exact h
      · simp [h]
  | pulseFire =>
      simp only [leafStep]
      unfold leafPulse
      split
      · exact h
      · rename_i hg
        simp [h] at hg
  | abortCall =>
      simp only [leafStep]
      split
      · exact h
      · rename_i hg
        simp [h] at hg
  | cascadeDone =>
      simp only [leafStep]
      split
      · exact h
      · simp [h]
  | timerFire =>
      simp only [leafStep]
      split
      · exact h
      · rw [auP_aborted_status]
        decide
  | fnResolve v =>
      simp only [leafStep]
      split
      · exact h
      · rw [auP_fulfilled_status]
        decide
  | fnReject e abortErr =>
      simp only [leafStep]
      split
      · exact h
      split
      · rw [auP_abortedErr_status]
        decide
      · rw [auP_failedErr_status]
        decide

theorem leafStep_finish_char (conc : Nat) (s : LeafState) (e : LEvent) :
    (leafStep conc s e).2.finishEvt
      = ((leafStep conc s e).1.u.status.isFinished && !s.u.status.isFinished) := by
  cases e with
  | startCall =>
      simp only [leafStep]
      split
      · simp
      split
      · simp
      · unfold leafPulse
        split
        · simp
        split
        · simp
        · exact au_finish_char _ _
  | pulseFire =>
      simp only [leafStep]
      unfold leafPulse
      split
      · simp
      split
      · simp
      · exact au_finish_char _ _
  | abortCall =>
      simp only [leafStep]
      split
      · simp
      split
      · exact au_finish_char _ _
      · exact au_finish_char _ _
  | cascadeDone =>
      simp only [leafStep]
      split
      · simp
      split
      · simp
      split
      · simp
      · exact au_finish_char _ _
  | timerFire =>
      simp only [leafStep]
      split
      · simp
      · exact au_finish_char _ _
  | fnResolve v =>
      simp only [leafStep]
      split
      · simp
      · exact au_finish_char _ _
  | fnReject e abortErr =>
      simp only [leafStep]
      split
      · simp
      split
      · exact au_finish_char _ _
      · exact au_finish_char _ _

theorem leafFinishCount_le (conc : Nat) (evs : List LEvent) (s : LeafState) :
    leafFinishCount conc s evs ≤ if s.u.status.isFinished then 0 else 1 := by
  induction evs generalizing s with
  | nil =>
      simp only [leafFinishCount]
      split <;> simp
  | cons e evs ih =>
      simp only [leafFinishCount]
      have hch := leafStep_finish_char conc s e
      have htail := ih (leafStep conc s e).1
      cases hf : s.u.status.isFinished with
      | true =>
          have hm := leafStep_fin_mono conc s e hf
          have hz : (leafStep conc s e).2.finishEvt = false := by
            rw [hch, hf]
            simp
          simp [hm] at htail
          simp [hz, hf]
          omega
      | false =>
          cases hn : (leafStep conc s e).1.u.status.isFinished with
          | false =>
              have hz : (leafStep conc s e).2.finishEvt = false := by
                rw [hch, hn]
                simp
              simp [hn] at htail
              simp [hz, hf]
              omega
          | true =>
              have hz : (leafStep conc s e).2.finishEvt = true := by
                rw [hch, hn, hf]
                simp
              simp [hn] at htail
              simp [hz, hf]
              omega

/-- The value the promise returned by toPromise() settles with, as a function
of the task's update-state: pending while unfinished; once finished, reject
with the stored error when isFailed, otherwise resolve with the stored result
(task.ts lines 1076-1089; the same dispatch runs in the finish listener). -/
def toPromiseOutcome (u : UState) : Option (Except (Option Nat) (Option Nat)) :=
  if u.status.isFinished then
    some (if u.status = TStatus.failed then Except.error u.error else Except.ok u.result)
  else none

/-- C1, counterexample.  A task whose function ignores the abort signal:
start it, abort it, let the abort timer force status aborted (a terminal
status, with no stored result), then let the function resolve with 7.  The
settle handler in Task#pulse calls Task#update unguarded, so the terminal
status aborted is overwritten with fulfilled and the result is stored,
contradicting the claim that no later event changes a terminal status. -/
theorem claim1_counterexample :
    (leafRun 1 leafInit [.startCall, .abortCall, .timerFire]).u.status = TStatus.aborted
    ∧ (leafRun 1 leafInit [.startCall, .abortCall, .timerFire]).fn = FnState.pending
    ∧ (leafRun 1 leafInit [.startCall, .abortCall, .timerFire, .fnResolve 7]).u.status
        = TStatus.fulfilled
    ∧ (leafRun 1 leafInit [.startCall, .abortCall, .timerFire, .fnResolve 7]).u.result
        = some 7 := by
  decide

/-- C1, amended.  Once a task reaches a terminal status, no later event other
than the settlement of its own function that was still pending at that time
changes its status, result or error; such a late settlement does overwrite
them (resolution makes the task fulfilled with the result, a non-abort
rejection makes it failed with the error). -/
theorem claim1_terminal_stable (conc : Nat) (s : LeafState) (h : LeafReachable conc s)
    (hf : s.u.status.isFinished = true) (e : LEvent)
    (he : e.isSettle = false ∨ s.fn ≠ FnState.pending) :
    (leafStep conc s e).1.u.status = s.u.status
    ∧ (leafStep conc s e).1.u.result = s.u.result
    ∧ (leafStep conc s e).1.u.error = s.u.error := by
  have hI := leafInv_reachable conc s h
  cases e with
  | startCall =>
      simp only [leafStep]
      split
      · exact ⟨rfl, rfl, rfl⟩
      · exact ⟨rfl, rfl, rfl⟩
  | pulseFire =>
      simp only [leafStep]
      unfold leafPulse
      split
      · exact ⟨rfl, rfl, rfl⟩
      · rename_i hg
        simp [hf] at hg
  | abortCall =>
      simp only [leafStep]
      split
      · exact ⟨rfl, rfl, rfl⟩
      · rename_i hg
        simp [hf] at hg
  | cascadeDone =>
      simp only [leafStep]
      split
      · exact ⟨rfl, rfl, rfl⟩
      · exact ⟨rfl, rfl, rfl⟩
  | timerFire =>
      simp only [leafStep]
      split
      · exact ⟨rfl, rfl, rfl⟩
      · rename_i ht
        have h2 := hI.fin_timer hf
        refine absurd ?_ ht
        rw [h2]
        rfl
  | fnResolve v =>
      simp only [leafStep]
      split
      · exact ⟨rfl, rfl, rfl⟩
      · rename_i hp
        rcases he with he | he
        · simp [LEvent.isSettle] at he
        · exact absurd (not_not.mp hp) he
  | fnReject e abortErr =>
      simp only [leafStep]
      split
      · exact ⟨rfl, rfl, rfl⟩
      · rename_i hp
        rcases he with he | he
        · simp [LEvent.isSettle] at he
        · exact absurd (not_not.mp hp) he

/-- Witness for the amended C1 at a concrete input: a fulfilled task is not
changed by a further abort call. -/
theorem claim1_terminal_stable_witness :
    (leafStep 1 (leafRun 1 leafInit [.startCall, .fnResolve 3]) .abortCall).1.u.status
        = (leafRun 1 leafInit [.startCall, .fnResolve 3]).u.status
    ∧ (leafStep 1 (leafRun 1 leafInit [.startCall, .fnResolve 3]) .abortCall).1.u.result
        = (leafRun 1 leafInit [.startCall, .fnResolve 3]).u.result
    ∧ (leafStep 1 (leafRun 1 leafInit [.startCall, .fnResolve 3]) .abortCall).1.u.error
        = (leafRun 1 leafInit [.startCall, .fnResolve 3]).u.error :=
  claim1_terminal_stable 1 (leafRun 1 leafInit [.startCall, .fnResolve 3])
    ⟨[.startCall, .fnResolve 3], rfl⟩ (by decide) .abortCall (Or.inl (by decide))

/-- C2.  In every reachable state of the lifecycle, the settled value of the
promise returned by toPromise(): resolves with the stored result when the
task is fulfilled, rejects with the stored error when it is failed, and
resolves with undefined (no stored result) when it is aborted.  The same
dispatch runs whether toPromise() finds the task already finished or waits
for the finish event, so both call orders are covered by quantifying over
all reachable finished states. -/
theorem claim2_toPromise (conc : Nat) (s : LeafState) (h : LeafReachable conc s) :
    (s.u.status = TStatus.fulfilled → toPromiseOutcome s.u = some (Except.ok s.u.result))
    ∧ (s.u.status = TStatus.failed → toPromiseOutcome s.u = some (Except.error s.u.error))
    ∧ (s.u.status = TStatus.aborted → toPromiseOutcome s.u = some (Except.ok none)) := by
  have hI := leafInv_reachable conc s h
  refine ⟨?_, ?_, ?_⟩ <;> intro hs
  · simp [toPromiseOutcome, hs, TStatus.isFinished]
  · simp [toPromiseOutcome, hs, TStatus.isFinished]
  · have hres : s.u.result = none := by
      cases hx : s.u.result with
      | none => rfl
      | some v =>
          have hy := hI.result_fulfilled (by rw [hx]; rfl)
          rw [hs] at hy
          exact absurd hy (by decide)
    simp [toPromiseOutcome, hs, TStatus.isFinished, hres]

/-- Witness for C2 at a concrete input: an idle task aborted before start. -/
theorem claim2_toPromise_witness :
    ((leafRun 1 leafInit [.abortCall]).u.status = TStatus.fulfilled →
        toPromiseOutcome (leafRun 1 leafInit [.abortCall]).u
          = some (Except.ok (leafRun 1 leafInit [.abortCall]).u.result))
    ∧ ((leafRun 1 leafInit [.abortCall]).u.status = TStatus.failed →
        toPromiseOutcome (leafRun 1 leafInit [.abortCall]).u
          = some (Except.error (leafRun 1 leafInit [.abortCall]).u.error))
    ∧ ((leafRun 1 leafInit [.abortCall]).u.status = TStatus.aborted →
        toPromiseOutcome (leafRun 1 leafInit [.abortCall]).u = some (Except.ok none)) :=
  claim2_toPromise 1 (leafRun 1 leafInit [.abortCall]) ⟨[.abortCall], rfl⟩

/-- C8.  abort() on a task that has not been started (status idle) only sets
status aborted (and the message), leaving result, error, function state,
executing flag, abort timer, cascade flag and signal untouched; abort() on a
finished or already-aborting task changes nothing at all; start() on a
finished task leaves status, result and error unchanged. -/
theorem claim8_abort_start_noop (conc : Nat) (s : LeafState) (h : LeafReachable conc s) :
    (s.u.status = TStatus.idle →
      (leafStep conc s .abortCall).1.u.status = TStatus.aborted
      ∧ (leafStep conc s .abortCall).1.u.result = s.u.result
      ∧ (leafStep conc s .abortCall).1.u.error = s.u.error
      ∧ (leafStep conc s .abortCall).1.fn = s.fn
      ∧ (leafStep conc s .abortCall).1.executing = s.executing
      ∧ (leafStep conc s .abortCall).1.u.abortTimer = s.u.abortTimer
      ∧ (leafStep conc s .abortCall).1.cascadePending = s.cascadePending
      ∧ (leafStep conc s .abortCall).1.signalAborted = s.signalAborted)
    ∧ (s.u.status.isFinished = true →
      (leafStep conc s .abortCall).1 = s
      ∧ (leafStep conc s .startCall).1.u.status = s.u.status
      ∧ (leafStep conc s .startCall).1.u.result = s.u.result
      ∧ (leafStep conc s .startCall).1.u.error = s.u.error)
    ∧ (s.u.status = TStatus.aborting → (leafStep conc s .abortCall).1 = s) := by
  have hI := leafInv_reachable conc s h
  refine ⟨?_, ?_, ?_⟩
  · intro hs
    have hnotstarted : s.u.status.isStarted = false := by
      rw [hs]
      rfl
    have hnotfin : s.u.status.isFinished = false := by
      rw [hs]
      rfl
    have habort : leafStep conc s .abortCall
        = ({ s with u := (applyUpdate s.u pAborted).1 }, (applyUpdate s.u pAborted).2) := by
      simp only [leafStep, hs]
      rfl
    rw [habort]
    refine ⟨auP_aborted_status s.u, auP_aborted_result s.u, auP_aborted_error s.u,
      rfl, rfl, ?_, rfl, rfl⟩
    rw [auP_aborted_timer s.u hnotfin, (hI.idle_fn hs).2]
  · intro hs
    constructor
    · simp only [leafStep]
      rw [if_pos]
      simp [hs]
    · simp only [leafStep]
      have hnot : s.u.status.isStarted = false := by
        unfold TStatus.isStarted
        rw [hs]
        simp
      rw [if_neg (by simp [hnot]), if_pos (by exact hs)]
      exact ⟨rfl, rfl, rfl⟩
  · intro hs
    simp only [leafStep]
    rw [if_pos]
    simp [hs]

/-- Witness for C8 at a concrete input: the freshly constructed idle task and
a fulfilled task. -/
theorem claim8_abort_start_noop_witness :
    (leafInit.u.status = TStatus.idle →
      (leafStep 1 leafInit .abortCall).1.u.status = TStatus.aborted
      ∧ (leafStep 1 leafInit .abortCall).1.u.result = leafInit.u.result
      ∧ (leafStep 1 leafInit .abortCall).1.u.error = leafInit.u.error
      ∧ (leafStep 1 leafInit .abortCall).1.fn = leafInit.fn
      ∧ (leafStep 1 leafInit .abortCall).1.executing = leafInit.executing
      ∧ (leafStep 1 leafInit .abortCall).1.u.abortTimer = leafInit.u.abortTimer
      ∧ (leafStep 1 leafInit .abortCall).1.cascadePending = leafInit.cascadePending
      ∧ (leafStep 1 leafInit .abortCall).1.signalAborted = leafInit.signalAborted)
    ∧ (leafInit.u.status.isFinished = true →
      (leafStep 1 leafInit .abortCall).1 = leafInit
      ∧ (leafStep 1 leafInit .startCall).1.u.status = leafInit.u.status
      ∧ (leafStep 1 leafInit .startCall).1.u.result = leafInit.u.result
      ∧ (leafStep 1 leafInit .startCall).1.u.error = leafInit.u.error)
    ∧ (leafInit.u.status = TStatus.aborting → (leafStep 1 leafInit .abortCall).1 = leafInit) :=
  claim8_abort_start_noop 1 leafInit ⟨[], rfl⟩

/-- C10.  Task#update fires its finish branch exactly on a write that moves
the status from non-terminal to terminal, and only then does it release the
run context, clear the abort timer and trigger a pulse; consequently, along
every event trace of the lifecycle the finish event is emitted at most
once. -/
theorem claim10_finish_once :
    (∀ (s : UState) (p : UProps),
        (applyUpdate s p).2.finishEvt
          = ((applyUpdate s p).1.status.isFinished && !s.status.isFinished)
        ∧ (applyUpdate s p).1.hasCtx = (s.hasCtx && !(applyUpdate s p).2.finishEvt)
        ∧ (applyUpdate s p).1.abortTimer = (s.abortTimer && !(applyUpdate s p).2.finishEvt)
        ∧ (applyUpdate s p).2.triggerPulse = (s.hasCtx && (applyUpdate s p).2.finishEvt))
    ∧ (∀ (conc : Nat) (evs : List LEvent), leafFinishCount conc leafInit evs ≤ 1) := by
  constructor
  · intro s p
    exact ⟨au_finish_char s p, au_hasCtx s p, au_abortTimer s p, au_triggerPulse s p⟩
  · intro conc evs
    have := leafFinishCount_le conc evs leafInit
    simpa using this

/-!
## Waiting on dependencies

Task#captureDependencies (task.ts lines 1192-1263) subscribes a finish
listener to every outstanding dependency.  The listener below is its direct
translation; a dependency is identified by an id and carries the terminal
status it finished with.
-/

/-- A finished dependency as seen by the finish listener: its id and the
status it had when its finish event fired. -/
structure DepTask where
  id : Nat
  status : TStatus
  deriving DecidableEq, Repr

/-- The dependent task's state while waiting: its update-state, whether the
waitingFor set is still attached, the outstanding dependency ids, the
collected failed/aborted dependencies, the stored failedDependencies field,
whether the child abort cascade has been invoked, and whether the wait ended
normally (startChildren for a started task, the wait-end event otherwise). -/
structure DepState where
  u : UState
  waitingForPresent : Bool
  waitingFor : List Nat
  failedDependencies : List DepTask
  storedFailedDeps : Option (List DepTask)
  childAborts : Bool
  proceeded : Bool
  waitEndEmitted : Bool
  deriving DecidableEq, Repr

/-- The finishCallback of Task#captureDependencies, fired when dependency t
finishes: clear the wait if the task has started but is no longer waiting;
otherwise drop t from waitingFor and record it when it failed or aborted;
only when no outstanding dependency remains either handle the failure set
(abort children, then become failed if any recorded dependency is failed,
else aborted, storing the set) or resume the normal start sequence. -/
def depFinish (s : DepState) (t : DepTask) : DepState :=
  if s.u.status.isStarted && !(s.u.status = TStatus.waiting) then
    { s with waitingForPresent := false }
  else
    let wf := s.waitingFor.erase t.id
    let fd := if t.status = TStatus.failed || t.status = TStatus.aborted
      then s.failedDependencies ++ [t] else s.failedDependencies
    if wf.isEmpty then
      if fd.isEmpty then
        if s.u.status.isStarted then
          { s with waitingFor := wf, waitingForPresent := false,
                   failedDependencies := fd, proceeded := true }
        else
          { s with waitingFor := wf, waitingForPresent := false,
                   failedDependencies := fd, waitEndEmitted := true }
      else
        let isFailed := fd.any (fun d => d.status = TStatus.failed)
        let r := applyUpdate s.u
          { status := some (if isFailed then TStatus.failed else TStatus.aborted),
            message := if isFailed then "Aborted due to fail of dependent task"
              else "Aborted due to cancellation of dependent task",
            error := some 1 }
        { s with u := r.1, waitingFor := wf, waitingForPresent := false,
                 failedDependencies := fd, storedFailedDeps := some fd, childAborts := true }
    else
      { s with waitingFor := wf, failedDependencies := fd }

/-- A waiting task with two outstanding dependencies, used as the C4
counterexample input. -/
def depCexInit : DepState :=
  { u := { status := .waiting, message := "Waiting for dependencies", error := none,
           result := none, hasCtx := true, abortTimer := false },
    waitingForPresent := true, waitingFor := [1, 2], failedDependencies := [],
    storedFailedDeps := none, childAborts := false, proceeded := false,
    waitEndEmitted := false }

/-- C4, counterexample.  A waiting task with outstanding dependencies 1 and 2:
when dependency 1 finishes failed, the task does not abort its children and
does not transition to failed; it merely records the failure and keeps
waiting for dependency 2, contradicting the claimed immediate reaction. -/
theorem claim4_counterexample :
    (depFinish depCexInit ⟨1, .failed⟩).u.status = TStatus.waiting
    ∧ (depFinish depCexInit ⟨1, .failed⟩).childAborts = false
    ∧ (depFinish depCexInit ⟨1, .failed⟩).waitingFor = [2]
    ∧ (depFinish depCexInit ⟨1, .failed⟩).failedDependencies
        = [⟨1, TStatus.failed⟩] := by
  decide

/-- C4, amended.  When a dependency of a waiting task finishes failed or
aborted, the task records it but stays waiting (no child abort, status
unchanged) while other dependencies are outstanding; when the last
outstanding dependency settles and the recorded set is non-empty, it aborts
its children and transitions to failed if any recorded dependency failed and
to aborted otherwise, storing the recorded set in failedDependencies; if
nothing was recorded, the wait ends and the normal start sequence resumes. -/
theorem claim4_dependency_failure (s : DepState) (t : DepTask)
    (hw : s.u.status = TStatus.waiting) :
    (s.waitingFor.erase t.id ≠ [] →
      (depFinish s t).u.status = s.u.status
      ∧ (depFinish s t).childAborts = s.childAborts
      ∧ (depFinish s t).waitingFor = s.waitingFor.erase t.id
      ∧ (depFinish s t).failedDependencies
          = (if t.status = TStatus.failed || t.status = TStatus.aborted
             then s.failedDependencies ++ [t] else s.failedDependencies))
    ∧ (s.waitingFor.erase t.id = [] →
      ((if t.status = TStatus.failed || t.status = TStatus.aborted
          then s.failedDependencies ++ [t] else s.failedDependencies) = [] →
        (depFinish s t).u.status = s.u.status ∧ (depFinish s t).proceeded = true)
      ∧ ((if t.status = TStatus.failed || t.status = TStatus.aborted
          then s.failedDependencies ++ [t] else s.failedDependencies) ≠ [] →
        (depFinish s t).childAborts = true
        ∧ (depFinish s t).u.status
            = (if (if t.status = TStatus.failed || t.status = TStatus.aborted
                    then s.failedDependencies ++ [t] else s.failedDependencies).any
                  (fun d => d.status = TStatus.failed)
               then TStatus.failed else TStatus.aborted)
        ∧ (depFinish s t).storedFailedDeps
            = some (if t.status = TStatus.failed || t.status = TStatus.aborted
                    then s.failedDependencies ++ [t] else s.failedDependencies))) := by
  have hguard : (s.u.status.isStarted && !(s.u.status = TStatus.waiting)) = false := by
    rw [hw]
    rfl
  have hstarted : s.u.status.isStarted = true := by
    rw [hw]
    rfl
  constructor
  · intro hne
    unfold depFinish
    rw [hguard]
    simp only [Bool.false_eq_true, if_false]
    rw [if_neg (by simpa [List.isEmpty_iff] using hne)]
    exact ⟨rfl, rfl, rfl, rfl⟩
  · intro hemp
    constructor
    · intro hfd
      unfold depFinish
      rw [hguard]
      simp only [Bool.false_eq_true, if_false]
      rw [if_pos (by simpa [List.isEmpty_iff] using hemp),
        if_pos (by simpa [List.isEmpty_iff] using hfd), if_pos hstarted]
      exact ⟨rfl, rfl⟩
    · intro hfd
      unfold depFinish
      rw [hguard]
      simp only [Bool.false_eq_true, if_false]
      rw [if_pos (by simpa [List.isEmpty_iff] using hemp),
        if_neg (by simpa [List.isEmpty_iff] using hfd)]
      refine ⟨rfl, ?_, rfl⟩
      exact au_status_some s.u _ _ rfl

/-!
## Dependency resolution and cycle detection

Task#determineChildrenDependencies (task.ts lines 1149-1190) resolves each
child's declared dependencies against the scope and runs detectCircular on
the result before any task starts.  The model below is the pass over a root
whose children are leaves (the scope is the child list itself): tasks are
identified with their index in the children list, a declared dependency is a
reference (a task object) or a name, resolution takes the first matching
scope entry and silently skips unresolved names and self references, and
detectCircular searches the dependencies recorded so far.  detectCircular
terminates in the source because the visited set grows; the embedding makes
that explicit with a fuel argument that the pass instantiates with
children.length + 1, an amount proved sufficient below. -/

/-- A declared dependency: a direct task reference (identified by index) or
a task name. -/
inductive DepRef
  | byRef (j : Nat)
  | byName (nm : String)
  deriving DecidableEq, Repr

/-- One materialized child: its optional name and declared dependencies. -/
structure ChildSpec where
  name : Option String := none
  deps : List DepRef := []
  deriving DecidableEq, Repr

/-- subScope.find for one declared dependency: a reference resolves to the
task itself when it is in scope, a name to the first task bearing it. -/
def resolveDep (children : List ChildSpec) (d : DepRef) : Option Nat :=
  match d with
  | .byRef j => if j < children.length then some j else none
  | .byName nm => children.findIdx? (fun c => c.name = some nm)

/-- The resolved dependency list of child i: declared dependencies in order,
dropping the unresolved ones and a reference to i itself (the
`!dependentTask || c === dependentTask` continue). -/
def resolvedDeps (children : List ChildSpec) (i : Nat) : List Nat :=
  (match children.get? i with
   | some c => c.deps
   | none => []).filterMap (fun d =>
    match resolveDep children d with
    | none => none
    | some j => if j = i then none else some j)

/-- Result of detectCircular: normal return carrying the visited list, the
thrown circular-dependency error, or exhaustion of the embedding fuel. -/
inductive DcRes
  | ok (vis : List Nat)
  | cycle
  | nofuel
  deriving DecidableEq, Repr

/-- The loop body of detectCircular (task.ts lines 1152-1170) for leaf tasks:
walk a dependency list with a visited list; finding the original task t
throws (cycle), already-visited tasks are skipped, and a new task is explored
through the callback next (which descends one recursion level) before the
walk continues with the visited list it returns. -/
def dcStep (g : Nat → List Nat) (t : Nat) (next : Nat → List Nat → DcRes) :
    List Nat → List Nat → DcRes
  | [], vis => DcRes.ok vis
  | l1 :: rest, vis =>
      if l1 = t then DcRes.cycle
      else if l1 ∈ vis then dcStep g t next rest vis
      else
        match next l1 vis with
        | DcRes.ok vis2 => dcStep g t next rest vis2
        | r => r

/-- Exploring one newly visited task: add it to the visited list and walk its
recorded dependencies, one fuel level lower.  The fuel only bounds the
recursion depth of the embedding; the pass below supplies enough of it. -/
def dcNode (g : Nat → List Nat) (t : Nat) : Nat → Nat → List Nat → DcRes
  | 0, _, _ => DcRes.nofuel
  | fuel + 1, l1, vis => dcStep g t (dcNode g t fuel) (g l1) (l1 :: vis)

/-- detectCircular(t, deps) with a given recorded-dependency graph. -/
def dcGo (g : Nat → List Nat) (t : Nat) (fuel : Nat) (deps vis : List Nat) : DcRes :=
  dcStep g t (dcNode g t fuel) deps vis

/-- The loop of Task#determineChildrenDependencies over the children still to
process, threading the recorded dependency graph (Task#dependencies of the
already-processed children; unprocessed children have none, i.e. []). -/
def depPassGo (children : List ChildSpec) : List Nat → (Nat → List Nat) → Except String Unit
  | [], _ => .ok ()
  | i :: rest, g =>
      match dcGo g i (children.length + 1) (resolvedDeps children i) [] with
      | .cycle => .error "Circular dependency detected."
      | .nofuel => .error "detectCircular fuel exhausted"
      | .ok _ => depPassGo children rest (fun j => if j = i then resolvedDeps children i else g j)

/-- The full dependency pass run synchronously by start() before any child is
started: resolve and check each child in declaration order.  An error here is
the synchronous throw out of start(). -/
def depPass (children : List ChildSpec) : Except String Unit :=
  depPassGo children (List.range children.length) (fun _ => [])

/-- The resolved dependency edge relation of the materialized tree:
i depends on j. -/
def flatEdge (children : List ChildSpec) (i j : Nat) : Prop :=
  j ∈ resolvedDeps children i

/-- The dependency graph recorded once the first i children are processed. -/
def gAt (children : List ChildSpec) (i : Nat) : Nat → List Nat :=
  fun j => if j < i then resolvedDeps children j else []

example :
    depPass [{ name := some "a", deps := [.byName "b"] },
             { name := some "b", deps := [.byName "a"] }]
      = .error "Circular dependency detected." := rfl

example :
    depPass [{ name := some "a", deps := [.byName "b"] },
             { name := some "b", deps := [.byName "c"] },
             { name := some "c", deps := [.byName "a"] }]
      = .error "Circular dependency detected." := rfl

example :
    depPass [{ name := some "a", deps := [.byRef 0] }] = .ok () := rfl

example :
    depPass [{ name := some "a", deps := [.byName "a"] }] = .ok () := rfl

example :
    depPass [{ name := some "a", deps := [.byName "b"] },
             { name := some "b", deps := [] }] = .ok () := rfl

/-- Correctness contract of one exploration callback: whenever it returns
normally, the visited list has grown to contain the node and everything it
saw, the node's recorded dependencies were all checked against the target,
and every visited node is either old or had its dependencies fully checked. -/
def DcGood (g : Nat → List Nat) (t : Nat) (next : Nat → List Nat → DcRes) : Prop :=
  ∀ l1 vis vis2, next l1 vis = DcRes.ok vis2 →
    (∀ x, x ∈ l1 :: vis → x ∈ vis2)
    ∧ (∀ u, u ∈ g l1 → u ≠ t ∧ u ∈ vis2)
    ∧ (∀ v, v ∈ vis2 → v ∈ l1 :: vis ∨ (∀ u, u ∈ g v → u ≠ t ∧ u ∈ vis2))

theorem dcStep_ok_props (g : Nat → List Nat) (t : Nat) (next : Nat → List Nat → DcRes)
    (hnext : DcGood g t next) :
    ∀ (deps vis vis2 : List Nat), dcStep g t next deps vis = DcRes.ok vis2 →
      (∀ x, x ∈ vis → x ∈ vis2)
      ∧ (∀ d, d ∈ deps → d ≠ t ∧ d ∈ vis2)
      ∧ (∀ v, v ∈ vis2 → v ∈ vis ∨ (∀ u, u ∈ g v → u ≠ t ∧ u ∈ vis2)) := by
  intro deps
  induction deps with
  | nil =>
      intro vis vis2 h
      simp only [dcStep] at h
      cases h
      exact ⟨fun x hx => hx, fun d hd => absurd hd (List.not_mem_nil d),
        fun v hv => Or.inl hv⟩
  | cons l1 rest ih =>
      intro vis vis2 h
      simp only [dcStep] at h
      by_cases h1 : l1 = t
      · rw [if_pos h1] at h
        cases h
      · rw [if_neg h1] at h
        by_cases h2 : l1 ∈ vis
        · rw [if_pos h2] at h
          obtain ⟨pa, pb, pc⟩ := ih vis vis2 h
          refine ⟨pa, ?_, pc⟩
          intro d hd
          rcases List.mem_cons.mp hd with hdl | hdr
          · rw [hdl]
            exact ⟨h1, pa l1 h2⟩
          · exact pb d hdr
        · rw [if_neg h2] at h
          cases hnx : next l1 vis with
          | ok visM =>
              rw [hnx] at h
              obtain ⟨qa, qb, qc⟩ := hnext l1 vis visM hnx
              obtain ⟨pa, pb, pc⟩ := ih visM vis2 h
              refine ⟨?_, ?_, ?_⟩
              · intro x hx
                exact pa x (qa x (List.mem_cons_of_mem l1 hx))
              · intro d hd
                rcases List.mem_cons.mp hd with hdl | hdr
                · rw [hdl]
                  exact ⟨h1, pa l1 (qa l1 (List.mem_cons_self l1 vis))⟩
                · exact pb d hdr
              · intro v hv
                rcases pc v hv with hvm | hcl
                · rcases qc v hvm with hvv | hclM
                  · rcases List.mem_cons.mp hvv with hvl | hvr
                    · rw [hvl]
                      refine Or.inr ?_
                      intro u hu
                      exact ⟨(qb u hu).1, pa u (qb u hu).2⟩
                    · exact Or.inl hvr
                  · refine Or.inr ?_
                    intro u hu
                    exact ⟨(hclM u hu).1, pa u (hclM u hu).2⟩
                · exact Or.inr hcl
          | cycle =>
              rw [hnx] at h
              cases h
          | nofuel =>
              rw [hnx] at h
              cases h

theorem dcNode_good (g : Nat → List Nat) (t : Nat) :
    ∀ fuel, DcGood g t (dcNode g t fuel) := by
  intro fuel
  induction fuel with
  | zero =>
      intro l1 vis vis2 h
      simp only [dcNode] at h
      cases h
  | succ fuel ih =>
      intro l1 vis vis2 h
      simp only [dcNode] at h
      obtain ⟨pa, pb, pc⟩ := dcStep_ok_props g t (dcNode g t fuel) ih (g l1) (l1 :: vis) vis2 h
      exact ⟨pa, pb, pc⟩

theorem dcGo_ok_unreachable (g : Nat → List Nat) (t fuel : Nat) (D vis2 : List Nat)
    (h : dcGo g t fuel D [] = DcRes.ok vis2) (d : Nat) (hd : d ∈ D) :
    d ≠ t ∧ ¬ Relation.TransGen (fun x y => y ∈ g x) d t := by
  obtain ⟨pa, pb, pc⟩ :=
    dcStep_ok_props g t (dcNode g t fuel) (dcNode_good g t fuel) D [] vis2 h
  have hdv : d ∈ vis2 := (pb d hd).2
  refine ⟨(pb d hd).1, ?_⟩
  have haux : ∀ b, Relation.TransGen (fun x y => y ∈ g x) d b → b ∈ vis2 ∧ b ≠ t := by
    intro b htr
    induction htr with
    | single hstep =>
        rcases pc d hdv with h0 | hcl
        · simp at h0
        · exact ⟨(hcl _ hstep).2, (hcl _ hstep).1⟩
    | tail htr2 hstep ih2 =>
        rcases pc _ ih2.1 with h0 | hcl
        · simp at h0
        · exact ⟨(hcl _ hstep).2, (hcl _ hstep).1⟩
  intro htr
  exact (haux t htr).2 rfl

/-- Structural contract of one exploration callback: the visited list stays
duplicate-free and bounded and only grows at the front. -/
def DcGoodN (g : Nat → List Nat) (n : Nat) (next : Nat → List Nat → DcRes) : Prop :=
  ∀ l1 vis vis2, next l1 vis = DcRes.ok vis2 →
    (l1 :: vis).Nodup → (∀ j, j ∈ l1 :: vis → j < n) →
    vis2.Nodup ∧ (∀ j, j ∈ vis2 → j < n) ∧ ∃ pre, vis2 = pre ++ (l1 :: vis)

theorem dcStep_ok_nodup (g : Nat → List Nat) (n t : Nat) (next : Nat → List Nat → DcRes)
    (hg : ∀ i, ∀ j, j ∈ g i → j < n) (hnext : DcGoodN g n next) :
    ∀ (deps vis vis2 : List Nat), dcStep g t next deps vis = DcRes.ok vis2 →
      (∀ j, j ∈ deps → j < n) → vis.Nodup → (∀ j, j ∈ vis → j < n) →
      vis2.Nodup ∧ (∀ j, j ∈ vis2 → j < n) ∧ ∃ pre, vis2 = pre ++ vis := by
  intro deps
  induction deps with
  | nil =>
      intro vis vis2 h hdb hnod hvb
      simp only [dcStep] at h
      cases h
      exact ⟨hnod, hvb, [], rfl⟩
  | cons l1 rest ih =>
      intro vis vis2 h hdb hnod hvb
      simp only [dcStep] at h
      by_cases h1 : l1 = t
      · rw [if_pos h1] at h
        cases h
      · rw [if_neg h1] at h
        by_cases h2 : l1 ∈ vis
        · rw [if_pos h2] at h
          exact ih vis vis2 h (fun j hj => hdb j (List.mem_cons_of_mem l1 hj)) hnod hvb
        · rw [if_neg h2] at h
          cases hnx : next l1 vis with
          | ok visM =>
              rw [hnx] at h
              have hl1n : l1 < n := hdb l1 (List.mem_cons_self l1 rest)
              obtain ⟨qnod, qb, preM, hpreM⟩ := hnext l1 vis visM hnx
                (List.nodup_cons.mpr ⟨h2, hnod⟩)
                (fun j hj => by
                  rcases List.mem_cons.mp hj with hl | hr
                  · rw [hl]
                    exact hl1n
                  · exact hvb j hr)
              obtain ⟨pnod, pb, pre2, hpre2⟩ :=
                ih visM vis2 h (fun j hj => hdb j (List.mem_cons_of_mem l1 hj)) qnod qb
              refine ⟨pnod, pb, pre2 ++ preM ++ [l1], ?_⟩
              rw [hpre2, hpreM]
              simp
          | cycle =>
              rw [hnx] at h
              cases h
          | nofuel =>
              rw [hnx] at h
              cases h

theorem dcNode_goodN (g : Nat → List Nat) (n t : Nat) (hg : ∀ i, ∀ j, j ∈ g i → j < n) :
    ∀ fuel, DcGoodN g n (dcNode g t fuel) := by
  intro fuel
  induction fuel with
  | zero =>
      intro l1 vis vis2 h
      simp only [dcNode] at h
      cases h
  | succ fuel ih =>
      intro l1 vis vis2 h hnod hbnd
      simp only [dcNode] at h
      exact dcStep_ok_nodup g n t (dcNode g t fuel) hg ih (g l1) (l1 :: vis) vis2 h
        (hg l1) hnod hbnd

theorem dcStep_nofuel_free (g : Nat → List Nat) (n t fuel : Nat)
    (hg : ∀ i, ∀ j, j ∈ g i → j < n)
    (hnodefree : ∀ l1 vis, (l1 :: vis).Nodup → (∀ j, j ∈ l1 :: vis → j < n) →
        n + 1 ≤ fuel + vis.length → dcNode g t fuel l1 vis ≠ DcRes.nofuel) :
    ∀ (deps vis : List Nat), (∀ j, j ∈ deps → j < n) → vis.Nodup →
      (∀ j, j ∈ vis → j < n) → n + 1 ≤ fuel + vis.length →
      dcStep g t (dcNode g t fuel) deps vis ≠ DcRes.nofuel := by
  intro deps
  induction deps with
  | nil =>
      intro vis hdb hnod hvb hc
      simp only [dcStep]
      intro h
      cases h
  | cons l1 rest ih =>
      intro vis hdb hnod hvb hc
      simp only [dcStep]
      by_cases h1 : l1 = t
      · rw [if_pos h1]
        intro h
        cases h
      · rw [if_neg h1]
        by_cases h2 : l1 ∈ vis
        · rw [if_pos h2]
          exact ih vis (fun j hj => hdb j (List.mem_cons_of_mem l1 hj)) hnod hvb hc
        · rw [if_neg h2]
          have hl1n : l1 < n := hdb l1 (List.mem_cons_self l1 rest)
          have hl1vb : ∀ j, j ∈ l1 :: vis → j < n := fun j hj => by
            rcases List.mem_cons.mp hj with hl | hr
            · rw [hl]
              exact hl1n
            · exact hvb j hr
          have hl1nod : (l1 :: vis).Nodup := List.nodup_cons.mpr ⟨h2, hnod⟩
          cases hnx : dcNode g t fuel l1 vis with
          | ok visM =>
              obtain ⟨qnod, qb, preM, hpreM⟩ :=
                dcNode_goodN g n t hg fuel l1 vis visM hnx hl1nod hl1vb
              have hlen : vis.length ≤ visM.length := by
                rw [hpreM]
                simp only [List.length_append, List.length_cons]
                omega
              exact ih visM (fun j hj => hdb j (List.mem_cons_of_mem l1 hj)) qnod qb
                (by omega)
          | cycle =>
              intro h
              cases h
          | nofuel =>
              exact absurd hnx (hnodefree l1 vis hl1nod hl1vb hc)

theorem resolveDep_lt (children : List ChildSpec) (d : DepRef) (j : Nat)
    (h : resolveDep children d = some j) : j < children.length := by
  cases d with
  | byRef k =>
      simp only [resolveDep] at h
      by_cases hk : k < children.length
      · rw [if_pos hk] at h
        cases h
        exact hk
      · rw [if_neg hk] at h
        cases h
  | byName nm =>
      simp only [resolveDep] at h
      exact (List.findIdx?_eq_some_iff_findIdx_eq.mp h).1

theorem resolvedDeps_lt (children : List ChildSpec) (i : Nat) :
    ∀ j, j ∈ resolvedDeps children i → j < children.length ∧ j ≠ i := by
  intro j hj
  unfold resolvedDeps at hj
  rw [List.mem_filterMap] at hj
  obtain ⟨d, _, hres⟩ := hj
  cases hrd : resolveDep children d with
  | none =>
      rw [hrd] at hres
      cases hres
  | some j2 =>
      rw [hrd] at hres
      simp only [] at hres
      by_cases hji : j2 = i
      · rw [if_pos hji] at hres
        cases hres
      · rw [if_neg hji] at hres
        have hjj : j2 = j := Option.some_inj.mp hres
        rw [← hjj]
        exact ⟨resolveDep_lt children d j2 hrd, hji⟩

theorem dcNode_nofuel_free (g : Nat → List Nat) (n t : Nat)
    (hg : ∀ i, ∀ j, j ∈ g i → j < n) :
    ∀ fuel l1 vis, (l1 :: vis).Nodup → (∀ j, j ∈ l1 :: vis → j < n) →
      n + 1 ≤ fuel + vis.length → dcNode g t fuel l1 vis ≠ DcRes.nofuel := by
  intro fuel
  induction fuel with
  | zero =>
      intro l1 vis hnod hbnd hc
      exfalso
      have hsub : (l1 :: vis).length ≤ n := by
        have hss : l1 :: vis ⊆ List.range n := fun j hj =>
          List.mem_range.mpr (hbnd j hj)
        have hle := (List.subperm_of_subset hnod hss).length_le
        simpa using hle
      simp only [List.length_cons] at hsub
      omega
  | succ fuel ih =>
      intro l1 vis hnod hbnd hc
      simp only [dcNode]
      exact dcStep_nofuel_free g n t fuel hg ih (g l1) (l1 :: vis) (hg l1) hnod hbnd
        (by simp only [List.length_cons]; omega)

theorem gAt_bounded (children : List ChildSpec) (i : Nat) :
    ∀ j x, x ∈ gAt children i j → x < children.length := by
  intro j x hx
  unfold gAt at hx
  by_cases hj : j < i
  · rw [if_pos hj] at hx
    exact (resolvedDeps_lt children j x hx).1
  · rw [if_neg hj] at hx
    exact absurd hx (List.not_mem_nil x)

theorem depPassGo_ok_or_cycle (children : List ChildSpec) :
    ∀ (idxs : List Nat) (g : Nat → List Nat),
      (∀ j x, x ∈ g j → x < children.length) →
      depPassGo children idxs g = Except.ok ()
      ∨ depPassGo children idxs g = Except.error "Circular dependency detected." := by
  intro idxs
  induction idxs with
  | nil =>
      intro g _
      exact Or.inl rfl
  | cons i rest ih =>
      intro g hgb
      simp only [depPassGo]
      cases hd : dcGo g i (children.length + 1) (resolvedDeps children i) [] with
      | cycle => exact Or.inr rfl
      | nofuel =>
          exfalso
          have hfree := dcStep_nofuel_free g children.length i (children.length + 1)
            (fun a b hb => hgb a b hb)
            (dcNode_nofuel_free g children.length i (fun a b hb => hgb a b hb)
              (children.length + 1))
            (resolvedDeps children i) []
            (fun j hj => (resolvedDeps_lt children i j hj).1)
            List.nodup_nil (fun j hj => absurd hj (List.not_mem_nil j))
            (by simp)
          exact hfree hd
      | ok vis =>
          exact ih _ (fun j x hx => by
            by_cases hji : j = i
            · rw [if_pos hji] at hx
              exact (resolvedDeps_lt children i x hx).1
            · rw [if_neg hji] at hx
              exact hgb j x hx)

theorem depPassGo_ok_detect (children : List ChildSpec) :
    ∀ (count k : Nat),
      depPassGo children (List.range' k count) (gAt children k) = Except.ok () →
      ∀ i, k ≤ i → i < k + count →
        ∃ vis2, dcGo (gAt children i) i (children.length + 1) (resolvedDeps children i) []
            = DcRes.ok vis2 := by
  intro count
  induction count with
  | zero =>
      intro k h i hk hlt
      exact absurd hlt (by omega)
  | succ count ih =>
      intro k h i hk hlt
      have hr : List.range' k (count + 1) = k :: List.range' (k + 1) count := rfl
      rw [hr] at h
      simp only [depPassGo] at h
      cases hd : dcGo (gAt children k) k (children.length + 1) (resolvedDeps children k) [] with
      | cycle =>
          rw [hd] at h
          cases h
      | nofuel =>
          rw [hd] at h
          cases h
      | ok vis =>
          rw [hd] at h
          have hupd : (fun j => if j = k then resolvedDeps children k else gAt children k j)
              = gAt children (k + 1) := by
            funext j
            unfold gAt
            by_cases hji : j = k
            · rw [if_pos hji, hji, if_pos (Nat.lt_succ_self k)]
            · rw [if_neg hji]
              by_cases hjk : j < k
              · rw [if_pos hjk, if_pos (Nat.lt_succ_of_lt hjk)]
              · rw [if_neg hjk, if_neg (by omega)]
          rw [hupd] at h
          rcases Nat.eq_or_lt_of_le hk with hik | hik
          · refine ⟨vis, ?_⟩
            rw [← hik]
            exact hd
          · exact ih (k + 1) h i hik (by omega)

theorem depPass_ok_detect (children : List ChildSpec)
    (h : depPass children = Except.ok ()) (i : Nat) (hi : i < children.length) :
    ∃ vis2, dcGo (gAt children i) i (children.length + 1) (resolvedDeps children i) []
        = DcRes.ok vis2 := by
  unfold depPass at h
  rw [List.range_eq_range'] at h
  have h0 : (fun _ : Nat => ([] : List Nat)) = gAt children 0 := by
    funext j
    unfold gAt
    rw [if_neg (Nat.not_lt_zero j)]
  rw [h0] at h
  exact depPassGo_ok_detect children children.length 0 h i (Nat.zero_le i) (by omega)

/-- The largest entry of a list of naturals (0 for the empty list). -/
def listMax : List Nat → Nat
  | [] => 0
  | x :: rest => max x (listMax rest)

theorem le_listMax : ∀ (l : List Nat) (x : Nat), x ∈ l → x ≤ listMax l := by
  intro l
  induction l with
  | nil =>
      intro x hx
      exact absurd hx (List.not_mem_nil x)
  | cons y rest ih =>
      intro x hx
      rcases List.mem_cons.mp hx with hxy | hxr
      · rw [hxy]
        exact le_max_left _ _
      · exact le_trans (ih x hxr) (le_max_right _ _)

theorem listMax_mem : ∀ (l : List Nat), l ≠ [] → listMax l ∈ l := by
  intro l
  induction l with
  | nil =>
      intro h
      exact absurd rfl h
  | cons y rest ih =>
      intro _
      by_cases hr : rest = []
      · rw [hr]
        simp [listMax]
      · rcases le_total (listMax rest) y with hle | hle
        · simp only [listMax]
          rw [max_eq_left hle]
          exact List.mem_cons_self y rest
        · simp only [listMax]
          rw [max_eq_right hle]
          exact List.mem_cons_of_mem y (ih hr)

theorem chain_targets (children : List ChildSpec) :
    ∀ (l : List Nat) (a : Nat), List.Chain (flatEdge children) a l →
      ∀ x, x ∈ l → ∃ y, flatEdge children y x := by
  intro l
  induction l with
  | nil =>
      intro a _ x hx
      exact absurd hx (List.not_mem_nil x)
  | cons b rest ih =>
      intro a hch x hx
      rw [List.chain_cons] at hch
      rcases List.mem_cons.mp hx with hxb | hxr
      · rw [hxb]
        exact ⟨a, hch.1⟩
      · exact ih b hch.2 x hxr

/-- Walking a dependency chain whose nodes all lie at or below m, starting
strictly below m and reaching m, stays inside the graph recorded before step
m of the pass, because every source on the way is processed before m. -/
theorem chain_to_reach (children : List ChildSpec) (m : Nat) :
    ∀ (l : List Nat) (a : Nat),
      List.Chain (flatEdge children) a l →
      (∀ x, x ∈ a :: l → x ≤ m) →
      m ∈ a :: l →
      a ≠ m →
      Relation.TransGen (fun x y => y ∈ gAt children m x) a m := by
  intro l
  induction l with
  | nil =>
      intro a _ _ hm ha
      rcases List.mem_cons.mp hm with hma | hml
      · exact absurd hma.symm ha
      · exact absurd hml (List.not_mem_nil m)
  | cons b rest ih =>
      intro a hch hb hm ha
      rw [List.chain_cons] at hch
      have ham : a < m := lt_of_le_of_ne (hb a (List.mem_cons_self a _)) ha
      have hGedge : b ∈ gAt children m a := by
        unfold gAt
        rw [if_pos ham]
        exact hch.1
      by_cases hbm : b = m
      · rw [hbm] at hGedge
        exact Relation.TransGen.single hGedge
      · refine Relation.TransGen.head hGedge ?_
        refine ih b hch.2 (fun x hx => hb x (List.mem_cons_of_mem a hx)) ?_ hbm
        rcases List.mem_cons.mp hm with hma | hml
        · exact absurd hma.symm ha
        · exact hml

/-- C3, amended.  If the resolved dependency graph of the materialized
children contains any cycle, the dependency pass run synchronously inside
start() throws the circular-dependency error before any task function runs
(depPass errs instead of scheduling).  Because resolution drops self
references, such a cycle necessarily involves at least two distinct tasks;
a direct self-dependency is silently ignored instead of raising (see the
counterexample). -/
theorem claim3_cycle_error (children : List ChildSpec)
    (hcyc : ∃ v, Relation.TransGen (flatEdge children) v v) :
    depPass children = Except.error "Circular dependency detected." := by
  rcases depPassGo_ok_or_cycle children (List.range children.length) (fun _ => [])
      (fun j x hx => absurd hx (List.not_mem_nil x)) with hok | herr
  · exfalso
    obtain ⟨v, hv⟩ := hcyc
    obtain ⟨w, hvw, hwv⟩ := Relation.TransGen.head'_iff.mp hv
    obtain ⟨l0, hch0, hlast0⟩ := List.exists_chain_of_relationReflTransGen hwv
    have hchl : List.Chain (flatEdge children) v (w :: l0) :=
      List.chain_cons.mpr ⟨hvw, hch0⟩
    have hlastl : (w :: l0).getLast? = some v := by
      rw [List.getLast?_eq_getLast (w :: l0) (List.cons_ne_nil w l0), hlast0]
    -- every node of the cycle chain is a dependency target, hence < n
    have htgt : ∀ x, x ∈ w :: l0 → x < children.length := by
      intro x hx
      obtain ⟨y, hy⟩ := chain_targets children (w :: l0) v hchl x hx
      exact (resolvedDeps_lt children y x hy).1
    have hvC : v ∈ w :: l0 := by
      have := List.getLast_mem (l := w :: l0) (List.cons_ne_nil w l0)
      rw [hlast0] at this
      exact this
    have hCb : ∀ x, x ∈ v :: w :: l0 → x < children.length := by
      intro x hx
      rcases List.mem_cons.mp hx with hxv | hxl
      · rw [hxv]
        exact htgt v hvC
      · exact htgt x hxl
    -- the processing-maximal node of the cycle
    set m : Nat := listMax (v :: w :: l0) with hm
    have hmC : m ∈ v :: w :: l0 := listMax_mem _ (List.cons_ne_nil _ _)
    have hub : ∀ x, x ∈ v :: w :: l0 → x ≤ m := fun x hx => le_listMax _ x hx
    have hmlt : m < children.length := hCb m hmC
    -- a first edge out of m and a ≤ m chain from there back to m
    have hkey : ∃ w0, w0 ∈ resolvedDeps children m
        ∧ Relation.TransGen (fun x y => y ∈ gAt children m x) w0 m := by
      by_cases hmv : m = v
      · refine ⟨w, ?_, ?_⟩
        · rw [hmv]
          exact hvw
        · refine chain_to_reach children m l0 w hch0 ?_ ?_ ?_
          · intro x hx
            exact hub x (List.mem_cons_of_mem v hx)
          · rw [hmv]
            exact hvC
          · have := (resolvedDeps_lt children v w hvw).2
            rw [hmv]
            exact this
      · have hml : m ∈ w :: l0 := by
          rcases List.mem_cons.mp hmC with hxv | hxl
          · exact absurd hxv hmv
          · exact hxl
        obtain ⟨l1, l2, hsplit⟩ := List.append_of_mem hml
        have hchsp := hchl
        rw [hsplit] at hchsp
        rw [List.chain_split] at hchsp
        obtain ⟨hA, hB⟩ := hchsp
        cases l2 with
        | nil =>
            exfalso
            have : (w :: l0).getLast? = some m := by
              rw [hsplit]
              have : l1 ++ m :: ([] : List Nat) = l1 ++ [m] := rfl
              rw [this, List.getLast?_concat]
            rw [hlastl] at this
            exact hmv (Option.some_inj.mp this).symm
        | cons w2 l2p =>
            rw [List.chain_cons] at hB
            obtain ⟨hmw2, hB2⟩ := hB
            have hw2m : w2 ≠ m := (resolvedDeps_lt children m w2 hmw2).2
            -- the tail of the cycle ends at v
            have hlast2 : (w2 :: l2p).getLast? = some v := by
              have hsplit2 : w :: l0 = (l1 ++ [m]) ++ w2 :: l2p := by
                rw [hsplit]
                simp
              rw [hsplit2] at hlastl
              rw [List.getLast?_append] at hlastl
              cases hgl : (w2 :: l2p).getLast? with
              | none =>
                  exfalso
                  have hne : (w2 :: l2p).getLast?.isSome := by
                    rw [List.getLast?_isSome]
                    exact List.cons_ne_nil w2 l2p
                  rw [hgl] at hne
                  cases hne
              | some z =>
                  rw [hgl] at hlastl
                  simp at hlastl
                  rw [hlastl]
            have hsubC : ∀ x, x ∈ w2 :: l2p → x ∈ v :: w :: l0 := by
              intro x hx
              refine List.mem_cons_of_mem v ?_
              rw [hsplit]
              refine List.mem_append.mpr (Or.inr ?_)
              exact List.mem_cons_of_mem m hx
            have hsubl1 : ∀ x, x ∈ l1 ++ [m] → x ∈ v :: w :: l0 := by
              intro x hx
              rcases List.mem_append.mp hx with hx1 | hxm
              · refine List.mem_cons_of_mem v ?_
                rw [hsplit]
                exact List.mem_append.mpr (Or.inl hx1)
              · refine List.mem_cons_of_mem v ?_
                rw [hsplit]
                refine List.mem_append.mpr (Or.inr ?_)
                rw [List.mem_singleton.mp hxm]
                exact List.mem_cons_self m (w2 :: l2p)
            -- split the tail as A ++ [v]
            have hdrop := List.dropLast_append_getLast? v hlast2
            cases hAcase : (w2 :: l2p).dropLast with
            | nil =>
                -- the tail is just [v], so w2 = v and the chain v (l1 ++ [m]) closes
                rw [hAcase] at hdrop
                simp only [List.nil_append] at hdrop
                have hw2v : w2 = v := by
                  have := hdrop
                  cases this
                  rfl
                refine ⟨w2, hmw2, ?_⟩
                refine chain_to_reach children m (l1 ++ [m]) w2 ?_ ?_ ?_ hw2m
                · rw [hw2v]
                  exact hA
                · intro x hx
                  rcases List.mem_cons.mp hx with hxw | hxl
                  · refine hub x ?_
                    rw [hxw]
                    exact hsubC w2 (List.mem_cons_self w2 l2p)
                  · exact hub x (hsubl1 x hxl)
                · refine List.mem_cons_of_mem w2 ?_
                  exact List.mem_append.mpr (Or.inr (List.mem_singleton.mpr rfl))
            | cons a0 A2 =>
                rw [hAcase] at hdrop
                -- hdrop : (a0 :: A2) ++ [v] = w2 :: l2p
                have ha0 : a0 = w2 := by
                  have := hdrop
                  rw [List.cons_append] at this
                  cases this
                  rfl
                have hl2p : l2p = A2 ++ [v] := by
                  have := hdrop
                  rw [List.cons_append] at this
                  cases this
                  rfl
                refine ⟨w2, hmw2, ?_⟩
                refine chain_to_reach children m (A2 ++ v :: (l1 ++ [m])) w2 ?_ ?_ ?_ hw2m
                · rw [List.chain_split]
                  constructor
                  · have hB2' := hB2
                    rw [hl2p] at hB2'
                    exact hB2'
                  · exact hA
                · intro x hx
                  rcases List.mem_cons.mp hx with hxw | hxl
                  · refine hub x ?_
                    rw [hxw]
                    exact hsubC w2 (List.mem_cons_self w2 l2p)
                  · rcases List.mem_append.mp hxl with hxA | hxr
                    · refine hub x (hsubC x ?_)
                      refine List.mem_cons_of_mem w2 ?_
                      rw [hl2p]
                      exact List.mem_append.mpr (Or.inl hxA)
                    · rcases List.mem_cons.mp hxr with hxv | hxm
                      · refine hub x ?_
                        rw [hxv]
                        exact List.mem_cons_self v (w :: l0)
                      · exact hub x (hsubl1 x hxm)
                · refine List.mem_cons_of_mem w2 ?_
                  refine List.mem_append.mpr (Or.inr ?_)
                  refine List.mem_cons_of_mem v ?_
                  exact List.mem_append.mpr (Or.inr (List.mem_singleton.mpr rfl))
    obtain ⟨w0, hw0D, hw0r⟩ := hkey
    obtain ⟨vis2, hdet⟩ := depPass_ok_detect children hok m hmlt
    exact (dcGo_ok_unreachable (gAt children m) m (children.length + 1)
      (resolvedDeps children m) vis2 hdet w0 hw0D).2 hw0r
  · exact herr

/-- C3, counterexample.  A direct self-dependency does not raise: a child
declaring itself (by reference or by its own name) as a dependency is
dropped during resolution by the continue on `c === dependentTask`, the
dependency pass succeeds, and start() proceeds to scheduling — contradicting
the claim that a self-dependency is a synchronous fatal construction
error. -/
theorem claim3_counterexample :
    depPass [{ name := some "a", deps := [DepRef.byRef 0] }] = Except.ok ()
    ∧ resolvedDeps [{ name := some "a", deps := [DepRef.byRef 0] }] 0 = []
    ∧ depPass [{ name := some "a", deps := [DepRef.byName "a"] }] = Except.ok () :=
  ⟨rfl, rfl, rfl⟩

/-- The two-task cycle used as the witness input for the amended C3. -/
def cyc2 : List ChildSpec :=
  [{ name := some "a", deps := [DepRef.byName "b"] },
   { name := some "b", deps := [DepRef.byName "a"] }]

/-- Witness for the amended C3 at a concrete input: the cycle a -> b -> a is
rejected with the circular-dependency error. -/
theorem claim3_cycle_error_witness :
    depPass cyc2 = Except.error "Circular dependency detected." :=
  claim3_cycle_error cyc2
    ⟨0, Relation.TransGen.head
      (show (1 : Nat) ∈ resolvedDeps cyc2 0 by decide)
      (Relation.TransGen.single (show (0 : Nat) ∈ resolvedDeps cyc2 1 by decide))⟩

/-- Witness for the amended C4 at a concrete input: the last outstanding
dependency aborts, so the waiting task ends aborted and stores the set. -/
theorem claim4_dependency_failure_witness :
    (depFinish depCexInit ⟨3, .aborted⟩).u.status = depCexInit.u.status
    ∧ (depFinish depCexInit ⟨3, .aborted⟩).childAborts = depCexInit.childAborts
    ∧ (depFinish depCexInit ⟨3, .aborted⟩).waitingFor = depCexInit.waitingFor.erase 3
    ∧ (depFinish depCexInit ⟨3, .aborted⟩).failedDependencies
        = (if TStatus.aborted = TStatus.failed || TStatus.aborted = TStatus.aborted
           then depCexInit.failedDependencies ++ [⟨3, TStatus.aborted⟩]
           else depCexInit.failedDependencies) :=
  (claim4_dependency_failure depCexInit ⟨3, .aborted⟩ (by decide)).1 (by decide)

/-!
## The pulse scheduler of a composite task with leaf children

Translation of Task#pulse (task.ts lines 1341-1417) and the finishCallback
of Task#startChildren (lines 1296-1330) for a started root whose children
are leaves sharing the root's run context.  Children are indexed 0..n-1 and
the root itself is participant n of the context's executingTasks set.  For a
leaf child, being in executingTasks coincides with its function being
pending, and the recursive child pulses the parent pulse performs on started
children are no-ops (a started leaf is either executing, which the pulse
guard rejects, or aborting).  Child status-change and finish events are
delivered asynchronously in the source; the model makes status changes
visible immediately and queues finish deliveries (pendingFinish), which the
adversarial scheduler delivers in any order.
-/

/-- How a task function settles. -/
inductive Outcome
  | ok | err | abortErr
  deriving DecidableEq, Repr

/-- The status Task#pulse's settle handlers write for each settlement. -/
def Outcome.status : Outcome → TStatus
  | .ok => TStatus.fulfilled
  | .err => TStatus.failed
  | .abortErr => TStatus.aborted

/-- Configuration of the composite run: the context's concurrency budget,
the root's serial and bail options, and each child's exclusive flag. -/
structure CompCfg where
  conc : Nat
  serial : Bool
  bail : Bool
  excl : List Bool
  deriving DecidableEq, Repr

/-- Number of children. -/
def nChildren (cfg : CompCfg) : Nat := cfg.excl.length

/-- The root's id in the executingTasks set. -/
def parentId (cfg : CompCfg) : Nat := nChildren cfg

/-- The exclusive option of child i. -/
def exclOf (cfg : CompCfg) (i : Nat) : Bool := cfg.excl.getD i false

/-- State of the run: the root's status, the children's statuses, the
childrenLeft set (present flag plus members in declaration order), the
context's executingTasks, the failedChildren accumulator and the stored
field, undelivered finish events, the children's abort timers, and whether
the root's own function has been launched. -/
structure CompState where
  pstatus : TStatus
  cstat : List TStatus
  clPresent : Bool
  childrenLeft : List Nat
  executing : List Nat
  failedChildren : List Nat
  fcStored : Bool
  pendingFinish : List Nat
  cTimer : List Bool
  pRan : Bool
  deriving DecidableEq, Repr

/-- Status of child i (idle when out of range). -/
def stat (s : CompState) (i : Nat) : TStatus := s.cstat.getD i TStatus.idle

/-- Child i's start (Task#start-inner via startChildren and its own pulse,
for a childless task): a no-op when started or finished; otherwise run when
the executing set is below the budget, setting status running, joining
executingTasks and launching the function; the parent's status-change
listener then makes the parent running unless it is aborting. -/
def childStart (cfg : CompCfg) (s : CompState) (i : Nat) : CompState :=
  if (stat s i).isStarted || (stat s i).isFinished then s
  else if s.executing.length ≥ cfg.conc then s
  else
    let s2 := { s with cstat := s.cstat.set i TStatus.running,
                       executing := s.executing.insert i }
    if s2.pstatus = TStatus.aborting then s2 else { s2 with pstatus := TStatus.running }

/-- The child-starting loop of Task#pulse (third phase): skip started
children, stop when the remaining budget k is exhausted, refuse to start an
exclusive child while anything is executing, start the child, and stop after
a start under serial or when an exclusive child is now running.  Returns the
new state and whether the loop returned early. -/
def pulseStart (cfg : CompCfg) : CompState → Int → List Nat → CompState × Bool
  | s, _, [] => (s, false)
  | s, k, i :: rest =>
      if (stat s i).isStarted then pulseStart cfg s k rest
      else if k ≤ 0 then (s, true)
      else if exclOf cfg i && s.executing.length ≠ 0 then (s, true)
      else
        let s2 := childStart cfg s i
        if cfg.serial || (stat s2 i = TStatus.running && exclOf cfg i) then (s2, true)
        else pulseStart cfg s2 (k - 1) rest

/-- The root launches its own function: status running, join executingTasks. -/
def launchParent (cfg : CompCfg) (s : CompState) : CompState :=
  { s with pstatus := TStatus.running, executing := s.executing.insert (parentId cfg),
           pRan := true }

/-- Task#pulse of the root (task.ts lines 1341-1417): bail out when finished,
aborting or already executing; with childrenLeft present, return if a started
child under serial or a running exclusive child exists, return when an
unfinished exclusive child coexists with a running child, then greedily start
children within the budget; finally, with no childrenLeft remaining and a
free slot, run the root's own function. -/
def pulse (cfg : CompCfg) (s : CompState) : CompState :=
  if s.pstatus.isFinished || s.pstatus = TStatus.aborting || parentId cfg ∈ s.executing then s
  else
    if s.clPresent then
      if s.childrenLeft.any (fun i =>
          ((stat s i).isStarted && cfg.serial) || (stat s i = TStatus.running && exclOf cfg i))
      then s
      else if (s.childrenLeft.any (fun i => !(stat s i).isFinished && exclOf cfg i))
          && (s.childrenLeft.any (fun i => !(stat s i).isFinished && stat s i = TStatus.running))
      then s
      else
        let r := pulseStart cfg s ((cfg.conc : Int) - s.executing.length) s.childrenLeft
        if r.2 then r.1
        else if (r.1.clPresent && !r.1.childrenLeft.isEmpty)
            || r.1.executing.length ≥ cfg.conc then r.1
        else launchParent cfg r.1
    else if s.executing.length ≥ cfg.conc then s
    else launchParent cfg s

/-- Settlement of child i's function (the then/catch handlers in Task#pulse):
leave executingTasks, write the outcome status through Task#update; when the
child was not already finished, its finish branch clears the abort timer and
emits the finish event (queued for delivery to the parent). -/
def settleChild (cfg : CompCfg) (s : CompState) (i : Nat) (o : Outcome) : CompState :=
  if i ∈ s.executing ∧ i < nChildren cfg then
    let old := stat s i
    let s2 := { s with executing := s.executing.erase i, cstat := s.cstat.set i o.status }
    if old.isFinished then s2
    else { s2 with cTimer := s2.cTimer.set i false, pendingFinish := s2.pendingFinish ++ [i] }
  else s

/-- Child i's abortTimeout fires: forced aborted; the finish branch of
Task#update emits the finish event when the child was not yet finished. -/
def childTimerFire (s : CompState) (i : Nat) : CompState :=
  if s.cTimer.getD i false then
    let old := stat s i
    let s2 := { s with cTimer := s.cTimer.set i false, cstat := s.cstat.set i TStatus.aborted }
    if old.isFinished then s2
    else { s2 with pendingFinish := s2.pendingFinish ++ [i] }
  else s

/-- abort() on child j during the cascade: no-op when finished or aborting;
an unstarted child goes straight to aborted and emits finish; a running child
becomes aborting with its abort timer armed (the cascade continuation then
signals its abort controller, which the settlement outcome reflects). -/
def childAbort (s : CompState) (j : Nat) : CompState :=
  if (stat s j).isFinished || stat s j = TStatus.aborting then s
  else if !(stat s j).isStarted then
    { s with cstat := s.cstat.set j TStatus.aborted,
             cTimer := s.cTimer.set j false,
             pendingFinish := s.pendingFinish ++ [j] }
  else
    { s with cstat := s.cstat.set j TStatus.aborting, cTimer := s.cTimer.set j true }

/-- Task#abortChildren: abort unfinished children in reverse declaration
order. -/
def abortChildrenRev (cfg : CompCfg) (s : CompState) : CompState :=
  (List.range (nChildren cfg)).reverse.foldl childAbort s

/-- The finishCallback of Task#startChildren (task.ts lines 1296-1330),
delivering child i's finish event: drop i from childrenLeft; when i failed
or aborted, record it and, under bail with children left, set the root
aborting if any child is started and abort the children; when no children
are left, delete childrenLeft and, if anything was recorded, become failed
if any recorded child is failed and aborted otherwise; otherwise pulse. -/
def deliverFinish (cfg : CompCfg) (s : CompState) (i : Nat) : CompState :=
  if i ∈ s.pendingFinish then
    let s0 := { s with pendingFinish := s.pendingFinish.erase i }
    let cl2 := s0.childrenLeft.erase i
    let s1 := { s0 with childrenLeft := cl2 }
    let st := stat s1 i
    if st = TStatus.failed || st = TStatus.aborted then
      let s2 := { s1 with failedChildren := s1.failedChildren ++ [i] }
      if cfg.bail && !cl2.isEmpty then
        let anyStarted := (List.range (nChildren cfg)).any (fun j => (stat s2 j).isStarted)
        let s3 := if anyStarted then { s2 with pstatus := TStatus.aborting } else s2
        abortChildrenRev cfg s3
      else
        if cl2.isEmpty then
          let s4 := { s2 with clPresent := false }
          if s4.failedChildren.isEmpty then pulse cfg s4
          else
            { s4 with
                pstatus := (if s4.failedChildren.any (fun j => stat s4 j = TStatus.failed)
                  then TStatus.failed else TStatus.aborted),
                fcStored := true }
        else pulse cfg s2
    else
      if cl2.isEmpty then
        let s4 := { s1 with clPresent := false }
        if s4.failedChildren.isEmpty then pulse cfg s4
        else
          { s4 with
              pstatus := (if s4.failedChildren.any (fun j => stat s4 j = TStatus.failed)
                then TStatus.failed else TStatus.aborted),
              fcStored := true }
      else pulse cfg s1
  else s

/-- Settlement of the root's own function. -/
def parentSettle (cfg : CompCfg) (s : CompState) (o : Outcome) : CompState :=
  if parentId cfg ∈ s.executing then
    { s with executing := s.executing.erase (parentId cfg), pstatus := o.status }
  else s

/-- Scheduler events of the composite run. -/
inductive CEvent
  | pulseEvt
  | settleEvt (i : Nat) (o : Outcome)
  | timerEvt (i : Nat)
  | deliverEvt (i : Nat)
  | parentSettleEvt (o : Outcome)
  deriving DecidableEq, Repr

/-- One labelled step. -/
def compStep (cfg : CompCfg) (s : CompState) : CEvent → CompState
  | .pulseEvt => pulse cfg s
  | .settleEvt i o => settleChild cfg s i o
  | .timerEvt i => childTimerFire s i
  | .deliverEvt i => deliverFinish cfg s i
  | .parentSettleEvt o => parentSettle cfg s o

/-- The state right after Task#startChildren subscribed the listeners: root
idle, children idle, childrenLeft holding every child in declaration
order. -/
def compInit (cfg : CompCfg) : CompState :=
  { pstatus := TStatus.idle
    cstat := List.replicate (nChildren cfg) TStatus.idle
    clPresent := true
    childrenLeft := List.range (nChildren cfg)
    executing := []
    failedChildren := []
    fcStored := false
    pendingFinish := []
    cTimer := List.replicate (nChildren cfg) false
    pRan := false }

/-- Run a list of events. -/
def compRun (cfg : CompCfg) (s : CompState) : List CEvent → CompState
  | [] => s
  | e :: evs => compRun cfg (compStep cfg s e) evs

/-- A state reachable from the initial composite state. -/
def CompReachable (cfg : CompCfg) (s : CompState) : Prop :=
  ∃ evs, compRun cfg (compInit cfg) evs = s

/-- Eight equal children under concurrency 2: one pulse starts exactly the
first two. -/
example :
    (compRun { conc := 2, serial := false, bail := true, excl := List.replicate 8 false }
      (compInit { conc := 2, serial := false, bail := true, excl := List.replicate 8 false })
      [.pulseEvt]).executing = [1, 0] := by decide

example :
    (compRun { conc := 2, serial := false, bail := true, excl := List.replicate 8 false }
      (compInit { conc := 2, serial := false, bail := true, excl := List.replicate 8 false })
      [.pulseEvt, .settleEvt 0 .ok, .deliverEvt 0, .pulseEvt]).executing = [2, 1] := by decide

/-- An exclusive child 1 does not start while child 0 runs. -/
example :
    (compRun { conc := 4, serial := false, bail := true, excl := [false, true, false] }
      (compInit { conc := 4, serial := false, bail := true, excl := [false, true, false] })
      [.pulseEvt]).cstat = [TStatus.running, TStatus.idle, TStatus.idle] := by decide

/-! ### The concurrency bound -/

theorem length_insert_le (l : List Nat) (a : Nat) : (l.insert a).length ≤ l.length + 1 := by
  by_cases h : a ∈ l
  · rw [List.length_insert_of_mem h]; omega
  · rw [List.length_insert_of_not_mem h]

theorem childStart_execBound (cfg : CompCfg) (s : CompState) (i : Nat)
    (h : s.executing.length ≤ cfg.conc) :
    (childStart cfg s i).executing.length ≤ cfg.conc := by
  unfold childStart
  split
  · exact h
  · split
    · exact h
    · rename_i hlt
      dsimp only
      split <;>
        exact le_trans (length_insert_le _ _) (by omega)

theorem pulseStart_execBound (cfg : CompCfg) (l : List Nat) : ∀ (s : CompState) (k : Int),
    s.executing.length ≤ cfg.conc → (pulseStart cfg s k l).1.executing.length ≤ cfg.conc := by
  induction l with
  | nil => intro s k h; exact h
  | cons i rest ih =>
    intro s k h
    simp only [pulseStart]
    split
    · exact ih s k h
    · split
      · exact h
      · split
        · exact h
        · split
          · exact childStart_execBound cfg s i h
          · exact ih _ _ (childStart_execBound cfg s i h)

theorem launchParent_execBound (cfg : CompCfg) (s : CompState)
    (h : s.executing.length < cfg.conc) :
    (launchParent cfg s).executing.length ≤ cfg.conc := by
  simp only [launchParent]
  exact le_trans (length_insert_le _ _) (by omega)

theorem pulse_execBound (cfg : CompCfg) (s : CompState)
    (h : s.executing.length ≤ cfg.conc) :
    (pulse cfg s).executing.length ≤ cfg.conc := by
  unfold pulse
  split
  · exact h
  · split
    · split
      · exact h
      · split
        · exact h
        · dsimp only
          split
          · exact pulseStart_execBound cfg s.childrenLeft s _ h
          · split
            · exact pulseStart_execBound cfg s.childrenLeft s _ h
            · rename_i hfull
              simp only [Bool.or_eq_true, not_or, decide_eq_true_eq, not_le] at hfull
              exact launchParent_execBound cfg _ hfull.2
    · split
      · exact h
      · rename_i hfull
        exact launchParent_execBound cfg s (by omega)

theorem settleChild_execBound (cfg : CompCfg) (s : CompState) (i : Nat) (o : Outcome)
    (h : s.executing.length ≤ cfg.conc) :
    (settleChild cfg s i o).executing.length ≤ cfg.conc := by
  unfold settleChild
  split
  · dsimp only
    split <;> exact le_trans (List.erase_sublist _ _).length_le h
  · exact h

theorem childTimerFire_executing (s : CompState) (i : Nat) :
    (childTimerFire s i).executing = s.executing := by
  unfold childTimerFire
  split
  · dsimp only
    split <;> rfl
  · rfl

theorem childAbort_executing (s : CompState) (j : Nat) :
    (childAbort s j).executing = s.executing := by
  unfold childAbort
  split
  · rfl
  · split <;> rfl

theorem foldl_childAbort_executing (l : List Nat) : ∀ (s : CompState),
    (l.foldl childAbort s).executing = s.executing := by
  induction l with
  | nil => intro s; rfl
  | cons j rest ih =>
    intro s
    simp only [List.foldl_cons]
    rw [ih, childAbort_executing]

theorem abortChildrenRev_executing (cfg : CompCfg) (s : CompState) :
    (abortChildrenRev cfg s).executing = s.executing := by
  unfold abortChildrenRev
  exact foldl_childAbort_executing _ s

theorem deliverFinish_execBound (cfg : CompCfg) (s : CompState) (i : Nat)
    (h : s.executing.length ≤ cfg.conc) :
    (deliverFinish cfg s i).executing.length ≤ cfg.conc := by
  unfold deliverFinish
  split
  · dsimp only
    split
    · split
      · rw [abortChildrenRev_executing]
        split <;> exact h
      · split
        · split
          · exact pulse_execBound cfg _ h
          · exact h
        · exact pulse_execBound cfg _ h
    · split
      · split
        · exact pulse_execBound cfg _ h
        · exact h
      · exact pulse_execBound cfg _ h
  · exact h

theorem parentSettle_execBound (cfg : CompCfg) (s : CompState) (o : Outcome)
    (h : s.executing.length ≤ cfg.conc) :
    (parentSettle cfg s o).executing.length ≤ cfg.conc := by
  unfold parentSettle
  split
  · exact le_trans (List.erase_sublist _ _).length_le h
  · exact h

theorem compStep_execBound (cfg : CompCfg) (s : CompState) (e : CEvent)
    (h : s.executing.length ≤ cfg.conc) :
    (compStep cfg s e).executing.length ≤ cfg.conc := by
  cases e with
  | pulseEvt => exact pulse_execBound cfg s h
  | settleEvt i o => exact settleChild_execBound cfg s i o h
  | timerEvt i => rw [compStep, childTimerFire_executing]; exact h
  | deliverEvt i => exact deliverFinish_execBound cfg s i h
  | parentSettleEvt o => exact parentSettle_execBound cfg s o h

theorem compRun_execBound (cfg : CompCfg) (evs : List CEvent) : ∀ (s : CompState),
    s.executing.length ≤ cfg.conc → (compRun cfg s evs).executing.length ≤ cfg.conc := by
  induction evs with
  | nil => intro s h; exact h
  | cons e rest ih =>
    intro s h
    exact ih _ (compStep_execBound cfg s e h)

/-- C6: the concurrency limit bounds the number of simultaneously executing
task functions across the whole run context, which children and the root
share (executingTasks is one set on the context): in every reachable state of
the composite run, at most `concurrency` functions are pending.  Every site
that adds to executingTasks (a child start or the root running its own
function) is guarded by a live budget check in Task#pulse. -/
theorem claim6_concurrency (cfg : CompCfg) (s : CompState)
    (h : CompReachable cfg s) : s.executing.length ≤ cfg.conc := by
  obtain ⟨evs, rfl⟩ := h
  exact compRun_execBound cfg evs (compInit cfg) (Nat.zero_le _)

/-- With concurrency 2 and eight parallel children, a reachable state keeps
at most two functions executing. -/
theorem claim6_concurrency_witness :
    (compRun { conc := 2, serial := false, bail := true, excl := List.replicate 8 false }
      (compInit { conc := 2, serial := false, bail := true, excl := List.replicate 8 false })
      [.pulseEvt]).executing.length ≤ 2 :=
  claim6_concurrency _ _ ⟨[.pulseEvt], rfl⟩

/-! ### Exclusivity: no exclusive child overlaps a running sibling -/

theorem getD_set_other (c : List TStatus) (i j : Nat) (st : TStatus) (h : j ≠ i) :
    (c.set i st).getD j TStatus.idle = c.getD j TStatus.idle := by
  simp [List.getD_eq_getElem?_getD, List.getElem?_set_ne (Ne.symm h)]

theorem getD_set_self (c : List TStatus) (i : Nat) (st : TStatus) (h : i < c.length) :
    (c.set i st).getD i TStatus.idle = st := by
  simp [List.getD_eq_getElem?_getD, List.getElem?_set, h]

theorem getD_oob (c : List TStatus) (i : Nat) (h : c.length ≤ i) :
    c.getD i TStatus.idle = TStatus.idle := by
  rw [List.getD_eq_getElem?_getD, List.getElem?_eq_none h]
  rfl

theorem stat_lt_of_ne_idle (s : CompState) (i : Nat) (h : stat s i ≠ TStatus.idle) :
    i < s.cstat.length := by
  by_contra hn
  exact h (getD_oob s.cstat i (by omega))

theorem outcome_status_finished (o : Outcome) : (Outcome.status o).isFinished = true := by
  cases o <;> rfl

theorem outcome_status_ne_running (o : Outcome) : Outcome.status o ≠ TStatus.running := by
  cases o <;> simp [Outcome.status]

/-- Inductive invariant behind the exclusivity guarantee: the child status
list has one entry per child, the abort-timer list likewise; a running child
is still a member of childrenLeft; a child with a queued finish event is
finished; a running child's function is executing; and no exclusive child
runs at the same time as any other running child. -/
structure ExInv (cfg : CompCfg) (s : CompState) : Prop where
  clen : s.cstat.length = nChildren cfg
  tlen : s.cTimer.length = nChildren cfg
  run_cl : ∀ i, stat s i = TStatus.running → i ∈ s.childrenLeft
  pf_fin : ∀ i, i ∈ s.pendingFinish → (stat s i).isFinished = true
  run_exec : ∀ i, stat s i = TStatus.running → i ∈ s.executing
  ex : ∀ i j, i ≠ j → exclOf cfg i = true → stat s i = TStatus.running →
      stat s j = TStatus.running → False

/-- No exclusive child is currently running. -/
def NoExRun (cfg : CompCfg) (s : CompState) : Prop :=
  ∀ e, exclOf cfg e = true → stat s e ≠ TStatus.running

theorem exInv_init (cfg : CompCfg) : ExInv cfg (compInit cfg) := by
  have hstat : ∀ i, stat (compInit cfg) i = TStatus.idle := by
    intro i
    simp [stat, compInit, List.getD_eq_getElem?_getD, List.getElem?_replicate]
    split <;> rfl
  refine ⟨by simp [compInit], by simp [compInit], ?_, ?_, ?_, ?_⟩
  · intro i h; rw [hstat i] at h; cases h
  · intro i h; simp [compInit] at h
  · intro i h; rw [hstat i] at h; cases h
  · intro i j _ _ hi _; rw [hstat i] at hi; cases hi

theorem childStart_fields (cfg : CompCfg) (s : CompState) (i : Nat) :
    (childStart cfg s i).childrenLeft = s.childrenLeft ∧
    (childStart cfg s i).pendingFinish = s.pendingFinish ∧
    (childStart cfg s i).cTimer = s.cTimer := by
  unfold childStart
  split
  · exact ⟨rfl, rfl, rfl⟩
  · split
    · exact ⟨rfl, rfl, rfl⟩
    · dsimp only
      split <;> exact ⟨rfl, rfl, rfl⟩

theorem childStart_cases (cfg : CompCfg) (s : CompState) (i : Nat) :
    childStart cfg s i = s ∨
    ((stat s i).isStarted = false ∧ (stat s i).isFinished = false ∧
     s.executing.length < cfg.conc ∧
     (childStart cfg s i).cstat = s.cstat.set i TStatus.running ∧
     (childStart cfg s i).executing = s.executing.insert i) := by
  unfold childStart
  split
  · exact Or.inl rfl
  · split
    · exact Or.inl rfl
    · rename_i hsf hfull
      simp only [Bool.or_eq_true, not_or, Bool.not_eq_true] at hsf
      dsimp only
      right
      refine ⟨hsf.1, hsf.2, by omega, ?_, ?_⟩
      · split <;> rfl
      · split <;> rfl

theorem childStart_stat_other (cfg : CompCfg) (s : CompState) (i j : Nat) (h : j ≠ i) :
    stat (childStart cfg s i) j = stat s j := by
  rcases childStart_cases cfg s i with hc | ⟨_, _, _, hcs, _⟩
  · rw [hc]
  · unfold stat
    rw [hcs, getD_set_other _ _ _ _ h]

theorem childStart_exInv (cfg : CompCfg) (s : CompState) (i : Nat)
    (inv : ExInv cfg s) (hcl : i ∈ s.childrenLeft)
    (hx : exclOf cfg i = true → s.executing.length = 0)
    (hnx : NoExRun cfg s) :
    ExInv cfg (childStart cfg s i) := by
  rcases childStart_cases cfg s i with h | ⟨hst, hfin, _, hcs, hexec⟩
  · rw [h]; exact inv
  obtain ⟨hcl', hpf', ht'⟩ := childStart_fields cfg s i
  have hso : ∀ j, j ≠ i → stat (childStart cfg s i) j = stat s j :=
    fun j hj => childStart_stat_other cfg s i j hj
  refine ⟨?_, ?_, ?_, ?_, ?_, ?_⟩
  · rw [hcs, List.length_set]; exact inv.clen
  · rw [ht']; exact inv.tlen
  · intro j hr
    rw [hcl']
    by_cases hj : j = i
    · subst hj; exact hcl
    · exact inv.run_cl j (by rw [hso j hj] at hr; exact hr)
  · intro j hj
    rw [hpf'] at hj
    by_cases hji : j = i
    · subst hji
      have := inv.pf_fin j hj
      rw [hfin] at this
      cases this
    · rw [hso j hji]; exact inv.pf_fin j hj
  · intro j hr
    rw [hexec]
    by_cases hj : j = i
    · subst hj; exact List.mem_insert_self _ _
    · exact List.mem_insert_of_mem (inv.run_exec j (by rw [hso j hj] at hr; exact hr))
  · intro a b hab hea hra hrb
    by_cases hai : a = i
    · subst hai
      have hb : stat s b = TStatus.running := by rw [← hso b (Ne.symm hab)]; exact hrb
      have hmem := inv.run_exec b hb
      rw [List.length_eq_zero.mp (hx hea)] at hmem
      cases hmem
    · have ha : stat s a = TStatus.running := by rw [← hso a hai]; exact hra
      exact hnx a hea ha

theorem launchParent_exInv (cfg : CompCfg) (s : CompState) (inv : ExInv cfg s) :
    ExInv cfg (launchParent cfg s) := by
  refine ⟨inv.clen, inv.tlen, inv.run_cl, inv.pf_fin, ?_, inv.ex⟩
  intro j hr
  exact List.mem_insert_of_mem (inv.run_exec j hr)

theorem pulseStart_exInv (cfg : CompCfg) (l : List Nat) : ∀ (s : CompState) (k : Int),
    ExInv cfg s → (∀ x, x ∈ l → x ∈ s.childrenLeft) → NoExRun cfg s →
    ExInv cfg (pulseStart cfg s k l).1 := by
  induction l with
  | nil => intro s k inv _ _; exact inv
  | cons i rest ih =>
    intro s k inv hsub hnx
    simp only [pulseStart]
    split
    · exact ih s k inv (fun x hx => hsub x (List.mem_cons_of_mem _ hx)) hnx
    · split
      · exact inv
      · split
        · exact inv
        · rename_i hexcl
          have hx : exclOf cfg i = true → s.executing.length = 0 := by
            intro he
            by_contra hne
            exact hexcl (by simp [he, hne])
          have inv2 := childStart_exInv cfg s i inv (hsub i (List.mem_cons_self i rest)) hx hnx
          split
          · exact inv2
          · rename_i hcont
            apply ih _ _ inv2
            · intro x hx2
              rw [(childStart_fields cfg s i).1]
              exact hsub x (List.mem_cons_of_mem _ hx2)
            · intro e he hrun
              by_cases hei : e = i
              · subst hei
                exact hcont (by simp [hrun, he])
              · exact hnx e he (by rw [← childStart_stat_other cfg s i e hei]; exact hrun)

theorem pulse_exInv (cfg : CompCfg) (s : CompState) (inv : ExInv cfg s) :
    ExInv cfg (pulse cfg s) := by
  unfold pulse
  split
  · exact inv
  · split
    · split
      · exact inv
      · split
        · exact inv
        · rename_i hph1 _
          have hnx : NoExRun cfg s := by
            intro e he hrun
            apply hph1
            simp only [List.any_eq_true]
            exact ⟨e, inv.run_cl e hrun, by simp [hrun, he]⟩
          dsimp only
          have invPS := pulseStart_exInv cfg s.childrenLeft s
            ((cfg.conc : Int) - s.executing.length) inv (fun x hx => hx) hnx
          split
          · exact invPS
          · split
            · exact invPS
            · exact launchParent_exInv cfg _ invPS
    · split
      · exact inv
      · exact launchParent_exInv cfg s inv

theorem getD_bool_lt (l : List Bool) (i : Nat) (h : l.getD i false = true) : i < l.length := by
  by_contra hn
  rw [List.getD_eq_getElem?_getD, List.getElem?_eq_none (by omega)] at h
  cases h

theorem settleChild_exInv (cfg : CompCfg) (s : CompState) (i : Nat) (o : Outcome)
    (inv : ExInv cfg s) : ExInv cfg (settleChild cfg s i o) := by
  unfold settleChild
  split
  · rename_i hg
    dsimp only
    have hilen : i < s.cstat.length := by rw [inv.clen]; exact hg.2
    have hsi : (s.cstat.set i o.status).getD i TStatus.idle = o.status :=
      getD_set_self _ _ _ hilen
    have hso : ∀ j, j ≠ i → (s.cstat.set i o.status).getD j TStatus.idle = stat s j :=
      fun j hj => getD_set_other _ _ _ _ hj
    split
    · refine ⟨?_, inv.tlen, ?_, ?_, ?_, ?_⟩
      · simp only [List.length_set]; exact inv.clen
      · intro j hr
        simp only [stat] at hr
        by_cases hj : j = i
        · subst hj; rw [hsi] at hr; exact absurd hr (outcome_status_ne_running o)
        · rw [hso j hj] at hr; exact inv.run_cl j hr
      · intro j hj
        simp only [stat]
        by_cases hji : j = i
        · subst hji; rw [hsi]; exact outcome_status_finished o
        · rw [hso j hji]; exact inv.pf_fin j hj
      · intro j hr
        simp only [stat] at hr
        by_cases hj : j = i
        · subst hj; rw [hsi] at hr; exact absurd hr (outcome_status_ne_running o)
        · rw [hso j hj] at hr
          exact (List.mem_erase_of_ne hj).mpr (inv.run_exec j hr)
      · intro a b hab hea hra hrb
        simp only [stat] at hra hrb
        by_cases hai : a = i
        · subst hai; rw [hsi] at hra; exact absurd hra (outcome_status_ne_running o)
        · by_cases hbi : b = i
          · subst hbi; rw [hsi] at hrb; exact absurd hrb (outcome_status_ne_running o)
          · rw [hso a hai] at hra
            rw [hso b hbi] at hrb
            exact inv.ex a b hab hea hra hrb
    · refine ⟨?_, ?_, ?_, ?_, ?_, ?_⟩
      · simp only [List.length_set]; exact inv.clen
      · simp only [List.length_set]; exact inv.tlen
      · intro j hr
        simp only [stat] at hr
        by_cases hj : j = i
        · subst hj; rw [hsi] at hr; exact absurd hr (outcome_status_ne_running o)
        · rw [hso j hj] at hr; exact inv.run_cl j hr
      · intro j hj
        simp only [stat]
        by_cases hji : j = i
        · subst hji; rw [hsi]; exact outcome_status_finished o
        · rw [hso j hji]
          rcases List.mem_append.mp hj with hl | hr
          · exact inv.pf_fin j hl
          · rw [List.mem_singleton] at hr; exact absurd hr hji
      · intro j hr
        simp only [stat] at hr
        by_cases hj : j = i
        · subst hj; rw [hsi] at hr; exact absurd hr (outcome_status_ne_running o)
        · rw [hso j hj] at hr
          exact (List.mem_erase_of_ne hj).mpr (inv.run_exec j hr)
      · intro a b hab hea hra hrb
        simp only [stat] at hra hrb
        by_cases hai : a = i
        · subst hai; rw [hsi] at hra; exact absurd hra (outcome_status_ne_running o)
        · by_cases hbi : b = i
          · subst hbi; rw [hsi] at hrb; exact absurd hrb (outcome_status_ne_running o)
          · rw [hso a hai] at hra
            rw [hso b hbi] at hrb
            exact inv.ex a b hab hea hra hrb
  · exact inv

theorem childTimerFire_exInv (cfg : CompCfg) (s : CompState) (i : Nat)
    (inv : ExInv cfg s) : ExInv cfg (childTimerFire s i) := by
  unfold childTimerFire
  split
  · rename_i hg
    dsimp only
    have hilen : i < s.cstat.length := by
      rw [inv.clen, ← inv.tlen]; exact getD_bool_lt _ _ hg
    have hsi : (s.cstat.set i TStatus.aborted).getD i TStatus.idle = TStatus.aborted :=
      getD_set_self _ _ _ hilen
    have hso : ∀ j, j ≠ i → (s.cstat.set i TStatus.aborted).getD j TStatus.idle = stat s j :=
      fun j hj => getD_set_other _ _ _ _ hj
    have hrun : ∀ j, (s.cstat.set i TStatus.aborted).getD j TStatus.idle = TStatus.running →
        j ≠ i ∧ stat s j = TStatus.running := by
      intro j hr
      by_cases hj : j = i
      · subst hj; rw [hsi] at hr; cases hr
      · rw [hso j hj] at hr; exact ⟨hj, hr⟩
    split
    · refine ⟨?_, ?_, ?_, ?_, ?_, ?_⟩
      · simp only [List.length_set]; exact inv.clen
      · simp only [List.length_set]; exact inv.tlen
      · intro j hr
        obtain ⟨_, hr⟩ := hrun j hr
        exact inv.run_cl j hr
      · intro j hj
        simp only [stat]
        by_cases hji : j = i
        · subst hji; rw [hsi]; rfl
        · rw [hso j hji]; exact inv.pf_fin j hj
      · intro j hr
        obtain ⟨_, hr⟩ := hrun j hr
        exact inv.run_exec j hr
      · intro a b hab hea hra hrb
        exact inv.ex a b hab hea (hrun a hra).2 (hrun b hrb).2
    · refine ⟨?_, ?_, ?_, ?_, ?_, ?_⟩
      · simp only [List.length_set]; exact inv.clen
      · simp only [List.length_set]; exact inv.tlen
      · intro j hr
        obtain ⟨_, hr⟩ := hrun j hr
        exact inv.run_cl j hr
      · intro j hj
        simp only [stat]
        by_cases hji : j = i
        · subst hji; rw [hsi]; rfl
        · rw [hso j hji]
          rcases List.mem_append.mp hj with hl | hr
          · exact inv.pf_fin j hl
          · rw [List.mem_singleton] at hr; exact absurd hr hji
      · intro j hr
        obtain ⟨_, hr⟩ := hrun j hr
        exact inv.run_exec j hr
      · intro a b hab hea hra hrb
        exact inv.ex a b hab hea (hrun a hra).2 (hrun b hrb).2
  · exact inv

theorem childAbort_exInv (cfg : CompCfg) (s : CompState) (j : Nat) (hn : j < nChildren cfg)
    (inv : ExInv cfg s) : ExInv cfg (childAbort s j) := by
  unfold childAbort
  split
  · exact inv
  · rename_i hguard
    simp only [Bool.or_eq_true, not_or, Bool.not_eq_true, decide_eq_true_eq] at hguard
    have hjlen : j < s.cstat.length := by rw [inv.clen]; exact hn
    have hnpf : j ∉ s.pendingFinish := by
      intro hmem
      have := inv.pf_fin j hmem
      rw [hguard.1] at this
      cases this
    split
    · have hsi : (s.cstat.set j TStatus.aborted).getD j TStatus.idle = TStatus.aborted :=
        getD_set_self _ _ _ hjlen
      have hso : ∀ k, k ≠ j → (s.cstat.set j TStatus.aborted).getD k TStatus.idle = stat s k :=
        fun k hk => getD_set_other _ _ _ _ hk
      have hrun : ∀ k, (s.cstat.set j TStatus.aborted).getD k TStatus.idle = TStatus.running →
          k ≠ j ∧ stat s k = TStatus.running := by
        intro k hr
        by_cases hk : k = j
        · subst hk; rw [hsi] at hr; cases hr
        · rw [hso k hk] at hr; exact ⟨hk, hr⟩
      refine ⟨?_, ?_, ?_, ?_, ?_, ?_⟩
      · simp only [List.length_set]; exact inv.clen
      · simp only [List.length_set]; exact inv.tlen
      · intro k hr
        obtain ⟨_, hr⟩ := hrun k hr
        exact inv.run_cl k hr
      · intro k hk
        simp only [stat]
        by_cases hkj : k = j
        · subst hkj; rw [hsi]; rfl
        · rw [hso k hkj]
          rcases List.mem_append.mp hk with hl | hr
          · exact inv.pf_fin k hl
          · rw [List.mem_singleton] at hr; exact absurd hr hkj
      · intro k hr
        obtain ⟨_, hr⟩ := hrun k hr
        exact inv.run_exec k hr
      · intro a b hab hea hra hrb
        exact inv.ex a b hab hea (hrun a hra).2 (hrun b hrb).2
    · have hsi : (s.cstat.set j TStatus.aborting).getD j TStatus.idle = TStatus.aborting :=
        getD_set_self _ _ _ hjlen
      have hso : ∀ k, k ≠ j → (s.cstat.set j TStatus.aborting).getD k TStatus.idle = stat s k :=
        fun k hk => getD_set_other _ _ _ _ hk
      have hrun : ∀ k, (s.cstat.set j TStatus.aborting).getD k TStatus.idle = TStatus.running →
          k ≠ j ∧ stat s k = TStatus.running := by
        intro k hr
        by_cases hk : k = j
        · subst hk; rw [hsi] at hr; cases hr
        · rw [hso k hk] at hr; exact ⟨hk, hr⟩
      refine ⟨?_, ?_, ?_, ?_, ?_, ?_⟩
      · simp only [List.length_set]; exact inv.clen
      · simp only [List.length_set]; exact inv.tlen
      · intro k hr
        obtain ⟨_, hr⟩ := hrun k hr
        exact inv.run_cl k hr
      · intro k hk
        simp only [stat]
        have hkj : k ≠ j := fun h => hnpf (h ▸ hk)
        rw [hso k hkj]
        exact inv.pf_fin k hk
      · intro k hr
        obtain ⟨_, hr⟩ := hrun k hr
        exact inv.run_exec k hr
      · intro a b hab hea hra hrb
        exact inv.ex a b hab hea (hrun a hra).2 (hrun b hrb).2

theorem foldl_childAbort_exInv (cfg : CompCfg) (l : List Nat) : ∀ (s : CompState),
    (∀ x ∈ l, x < nChildren cfg) → ExInv cfg s → ExInv cfg (l.foldl childAbort s) := by
  induction l with
  | nil => intro s _ inv; exact inv
  | cons j rest ih =>
    intro s hb inv
    simp only [List.foldl_cons]
    exact ih _ (fun x hx => hb x (List.mem_cons_of_mem _ hx))
      (childAbort_exInv cfg s j (hb j (List.mem_cons_self _ _)) inv)

theorem abortChildrenRev_exInv (cfg : CompCfg) (s : CompState) (inv : ExInv cfg s) :
    ExInv cfg (abortChildrenRev cfg s) := by
  unfold abortChildrenRev
  exact foldl_childAbort_exInv cfg _ s
    (fun x hx => List.mem_range.mp (List.mem_reverse.mp hx)) inv

theorem deliverFinish_exInv (cfg : CompCfg) (s : CompState) (i : Nat)
    (inv : ExInv cfg s) : ExInv cfg (deliverFinish cfg s i) := by
  unfold deliverFinish
  split
  · rename_i hi
    dsimp only
    have hifin : (stat s i).isFinished = true := inv.pf_fin i hi
    have inv1 : ExInv cfg { s with pendingFinish := s.pendingFinish.erase i,
                                   childrenLeft := s.childrenLeft.erase i } := by
      refine ⟨inv.clen, inv.tlen, ?_, ?_, inv.run_exec, inv.ex⟩
      · intro j hr
        have hji : j ≠ i := by
          intro h
          subst h
          rw [show stat s j = TStatus.running from hr] at hifin
          cases hifin
        exact (List.mem_erase_of_ne hji).mpr (inv.run_cl j hr)
      · intro j hj
        exact inv.pf_fin j (List.mem_of_mem_erase hj)
    split
    · have inv2 : ExInv cfg { s with pendingFinish := s.pendingFinish.erase i,
                                     childrenLeft := s.childrenLeft.erase i,
                                     failedChildren := s.failedChildren ++ [i] } :=
        ⟨inv1.clen, inv1.tlen, inv1.run_cl, inv1.pf_fin, inv1.run_exec, inv1.ex⟩
      split
      · apply abortChildrenRev_exInv
        split
        · exact ⟨inv2.clen, inv2.tlen, inv2.run_cl, inv2.pf_fin, inv2.run_exec, inv2.ex⟩
        · exact inv2
      · split
        · split
          · exact pulse_exInv cfg _
              ⟨inv2.clen, inv2.tlen, inv2.run_cl, inv2.pf_fin, inv2.run_exec, inv2.ex⟩
          · exact ⟨inv2.clen, inv2.tlen, inv2.run_cl, inv2.pf_fin, inv2.run_exec, inv2.ex⟩
        · exact pulse_exInv cfg _ inv2
    · split
      · split
        · exact pulse_exInv cfg _
            ⟨inv1.clen, inv1.tlen, inv1.run_cl, inv1.pf_fin, inv1.run_exec, inv1.ex⟩
        · exact ⟨inv1.clen, inv1.tlen, inv1.run_cl, inv1.pf_fin, inv1.run_exec, inv1.ex⟩
      · exact pulse_exInv cfg _ inv1
  · exact inv

theorem parentSettle_exInv (cfg : CompCfg) (s : CompState) (o : Outcome)
    (inv : ExInv cfg s) : ExInv cfg (parentSettle cfg s o) := by
  unfold parentSettle
  split
  · refine ⟨inv.clen, inv.tlen, inv.run_cl, inv.pf_fin, ?_, inv.ex⟩
    intro j hr
    have hr' : stat s j = TStatus.running := hr
    have hjn : j < nChildren cfg := by
      rw [← inv.clen]
      exact stat_lt_of_ne_idle s j (by rw [hr']; intro h; cases h)
    have hne : j ≠ parentId cfg := by
      unfold parentId at *
      omega
    exact (List.mem_erase_of_ne hne).mpr (inv.run_exec j hr)
  · exact inv

theorem compStep_exInv (cfg : CompCfg) (s : CompState) (e : CEvent)
    (inv : ExInv cfg s) : ExInv cfg (compStep cfg s e) := by
  cases e with
  | pulseEvt => exact pulse_exInv cfg s inv
  | settleEvt i o => exact settleChild_exInv cfg s i o inv
  | timerEvt i => exact childTimerFire_exInv cfg s i inv
  | deliverEvt i => exact deliverFinish_exInv cfg s i inv
  | parentSettleEvt o => exact parentSettle_exInv cfg s o inv

theorem compRun_exInv (cfg : CompCfg) (evs : List CEvent) : ∀ (s : CompState),
    ExInv cfg s → ExInv cfg (compRun cfg s evs) := by
  induction evs with
  | nil => intro s inv; exact inv
  | cons e rest ih =>
    intro s inv
    exact ih _ (compStep_exInv cfg s e inv)

/-- C7: a child with options.exclusive never runs concurrently with any
sibling: in every reachable state of the composite run, an exclusive child
running excludes every other child from being in status running.  Task#pulse
returns in phase two when an unfinished exclusive child coexists with a
running one, refuses to start an exclusive child while executingTasks is
nonempty, and stops starting further children right after an exclusive child
came up running. -/
theorem claim7_exclusive (cfg : CompCfg) (s : CompState) (h : CompReachable cfg s)
    (i j : Nat) (hij : i ≠ j) (hex : exclOf cfg i = true) :
    ¬(stat s i = TStatus.running ∧ stat s j = TStatus.running) := by
  obtain ⟨evs, rfl⟩ := h
  intro hc
  exact (compRun_exInv cfg evs (compInit cfg) (exInv_init cfg)).ex i j hij hex hc.1 hc.2

/-- Concrete instance of the exclusivity guarantee: with children
[plain, exclusive, plain], after one pulse the exclusive child 1 and child 0
are not both running. -/
theorem claim7_exclusive_witness :
    (1 : Nat) ≠ 0 ∧
    exclOf { conc := 4, serial := false, bail := true, excl := [false, true, false] } 1 = true ∧
    ¬(stat (compRun { conc := 4, serial := false, bail := true, excl := [false, true, false] }
        (compInit { conc := 4, serial := false, bail := true, excl := [false, true, false] })
        [.pulseEvt]) 1 = TStatus.running ∧
      stat (compRun { conc := 4, serial := false, bail := true, excl := [false, true, false] }
        (compInit { conc := 4, serial := false, bail := true, excl := [false, true, false] })
        [.pulseEvt]) 0 = TStatus.running) :=
  ⟨by decide, by decide,
    claim7_exclusive _ _ ⟨[.pulseEvt], rfl⟩ 1 0 (by decide) (by decide)⟩

/-! ### Final classification of a composite -/

/-- C5: when the last outstanding child's finish event is delivered
(childrenLeft becomes empty), the finishCallback of Task#startChildren
classifies the composite from the recorded failedChildren — the children
that finished failed or aborted: failed when any recorded child is in status
failed (even if others were aborted), aborted when children were recorded but
none is failed, and with a clean record it deletes childrenLeft and pulses,
which launches the composite's own function once a concurrency slot is
free. -/
theorem claim5_final_classification (cfg : CompCfg) (s : CompState) (i : Nat)
    (hp : i ∈ s.pendingFinish)
    (hlast : s.childrenLeft.erase i = []) :
    ((stat s i = TStatus.failed ∨ stat s i = TStatus.aborted) →
       (deliverFinish cfg s i).pstatus =
         (if (s.failedChildren ++ [i]).any (fun j => stat s j = TStatus.failed)
          then TStatus.failed else TStatus.aborted) ∧
       (deliverFinish cfg s i).fcStored = true ∧
       (deliverFinish cfg s i).failedChildren = s.failedChildren ++ [i])
    ∧ (stat s i ≠ TStatus.failed → stat s i ≠ TStatus.aborted → s.failedChildren ≠ [] →
       (deliverFinish cfg s i).pstatus =
         (if s.failedChildren.any (fun j => stat s j = TStatus.failed)
          then TStatus.failed else TStatus.aborted) ∧
       (deliverFinish cfg s i).fcStored = true)
    ∧ (stat s i ≠ TStatus.failed → stat s i ≠ TStatus.aborted → s.failedChildren = [] →
       s.pstatus = TStatus.running → parentId cfg ∉ s.executing →
       s.executing.length < cfg.conc →
       (deliverFinish cfg s i).clPresent = false ∧
       (deliverFinish cfg s i).pRan = true ∧
       (deliverFinish cfg s i).pstatus = TStatus.running) := by
  refine ⟨?_, ?_, ?_⟩
  · intro hst
    unfold deliverFinish
    rw [if_pos hp]
    dsimp only
    rw [if_pos (by rcases hst with h | h <;> simp [stat] at h ⊢ <;> simp [h])]
    rw [hlast]
    rw [if_neg (by simp)]
    rw [if_pos (by rfl)]
    rw [if_neg (by simp)]
    exact ⟨rfl, rfl, rfl⟩
  · intro h1 h2 hfc
    unfold deliverFinish
    rw [if_pos hp]
    dsimp only
    rw [if_neg (by simp [stat] at h1 h2 ⊢; exact ⟨h1, h2⟩)]
    rw [hlast]
    rw [if_pos (by rfl)]
    rw [if_neg (by simpa using hfc)]
    exact ⟨rfl, rfl⟩
  · intro h1 h2 hfc hrun hpe hlt
    unfold deliverFinish
    rw [if_pos hp]
    dsimp only
    rw [if_neg (by simp [stat] at h1 h2 ⊢; exact ⟨h1, h2⟩)]
    rw [hlast]
    rw [if_pos (by rfl)]
    rw [if_pos (by simp [hfc])]
    unfold pulse
    rw [if_neg (by simp [hrun, hpe, TStatus.isFinished])]
    rw [if_neg (by intro h; cases h)]
    rw [if_neg (by simpa using hlt)]
    exact ⟨rfl, rfl, rfl⟩

/-- Witness configuration for the final classification. -/
def c5cfg : CompCfg := { conc := 4, serial := false, bail := false, excl := [false, false] }

/-- Witness state: child 0 finished failed and is recorded, child 1 finished
aborted with its finish event still queued, nothing executing. -/
def c5st : CompState :=
  { pstatus := TStatus.running
    cstat := [TStatus.failed, TStatus.aborted]
    clPresent := true
    childrenLeft := [1]
    executing := []
    failedChildren := [0]
    fcStored := false
    pendingFinish := [1]
    cTimer := [false, false]
    pRan := false }

/-- Delivering the last finish with a failed child recorded classifies the
composite failed even though the delivered child was aborted. -/
theorem claim5_final_classification_witness :
    (deliverFinish c5cfg c5st 1).pstatus = TStatus.failed ∧
    (deliverFinish c5cfg c5st 1).fcStored = true := by
  have h := (claim5_final_classification c5cfg c5st 1 (by decide) (by decide)).1
    (Or.inr (by decide))
  refine ⟨?_, h.2.1⟩
  rw [h.1]
  decide

/-!
## TaskQueue

Translation of TaskQueue (part_003 lines 105-212): the queue of pending
tasks, the set of running tasks, and the maxQueue/concurrency/paused
options.  An enqueue argument is either an existing Task instance or a bare
function, which `_enqueue` wraps in a fresh Task.  A thrown `Queue limit`
error is modelled as an `Except.error` result paired with the unchanged
queue state, which is faithful because the guard precedes every mutation in
the source.
-/

/-- A TaskLike argument to enqueue. -/
inductive TaskLike
  | task (id : Nat)
  | fn (id : Nat)
  deriving DecidableEq, Repr

/-- The Task instance the queue operates on; `wrapped` records whether it
was created by wrapping a bare function. -/
structure QTask where
  id : Nat
  wrapped : Bool
  deriving DecidableEq, Repr

/-- `task instanceof Task ? task : new Task(task)` -/
def toTaskInstance : TaskLike → QTask
  | .task i => { id := i, wrapped := false }
  | .fn i => { id := i, wrapped := true }

/-- TaskQueue state: options and the two containers. -/
structure TaskQueue where
  maxQueue : Option Nat
  concurrency : Option Nat
  paused : Bool
  queue : List QTask
  running : List QTask
  deriving DecidableEq, Repr

/-- `get size` (lines 129-131). -/
def qSize (q : TaskQueue) : Nat := q.queue.length + q.running.length

/-- JS truthiness of an optional numeric option: undefined and 0 are falsy. -/
def optNatTruthy : Option Nat → Bool
  | none => false
  | some n => decide (n ≠ 0)

/-- The while-loop condition of TaskQueue#pulse:
`!this.concurrency || this._running.size < this.concurrency`. -/
def concAllows (conc : Option Nat) (running : Nat) : Bool :=
  !optNatTruthy conc || decide (running < conc.getD 0)

/-- The while loop of TaskQueue#pulse: while the concurrency allows, shift
the next task off the queue (stopping when empty) and add it to the running
set, starting it. -/
def qPulseLoop (conc : Option Nat) : List QTask → List QTask → List QTask × List QTask
  | q, r =>
    if concAllows conc r.length then
      match q with
      | [] => ([], r)
      | t :: rest => qPulseLoop conc rest (r ++ [t])
    else (q, r)

/-- TaskQueue#pulse (lines 194-210): a no-op while paused. -/
def qPulse (q : TaskQueue) : TaskQueue :=
  if q.paused then q
  else
    let p := qPulseLoop q.concurrency q.queue q.running
    { q with queue := p.1, running := p.2 }

/-- TaskQueue#enqueue-inner (lines 182-192): throw when maxQueue is truthy
and the current size has reached it; otherwise wrap a bare function into a
Task, prepend or append it, pulse, and return the instance. -/
def enqueueQ (q : TaskQueue) (t : TaskLike) (prepend : Bool) :
    Except String QTask × TaskQueue :=
  if optNatTruthy q.maxQueue && decide (qSize q ≥ q.maxQueue.getD 0) then
    (Except.error ("Queue limit (" ++ toString (q.maxQueue.getD 0) ++ ") exceeded"), q)
  else
    let ti := toTaskInstance t
    let q2 := if prepend then { q with queue := ti :: q.queue }
              else { q with queue := q.queue ++ [ti] }
    (Except.ok ti, qPulse q2)

/-- The finish listener attached in TaskQueue#pulse: drop the task from the
running set and, unless the queue fell idle, pulse again. -/
def qFinish (q : TaskQueue) (t : QTask) : TaskQueue :=
  if t ∈ q.running then
    let q2 := { q with running := q.running.erase t }
    if q2.running.length = 0 ∧ q2.queue.length = 0 then q2
    else qPulse q2
  else q

/-- C9: with maxQueue = m > 0, an enqueue (prepend or append) throws the
`Queue limit` error exactly when size (queued plus running) is at least m at
call time, leaving the queue state untouched; below the limit it returns the
Task instance — the argument itself, or a fresh Task wrapping the bare
function given. -/
theorem claim9_maxQueue (q : TaskQueue) (m : Nat) (hm : q.maxQueue = some m) (hm0 : 0 < m)
    (t : TaskLike) (prepend : Bool) :
    (qSize q ≥ m →
      (enqueueQ q t prepend).1 =
        Except.error ("Queue limit (" ++ toString m ++ ") exceeded") ∧
      (enqueueQ q t prepend).2 = q)
    ∧ (qSize q < m →
      (enqueueQ q t prepend).1 = Except.ok (toTaskInstance t) ∧
      ((∃ i, t = TaskLike.task i ∧ toTaskInstance t = ⟨i, false⟩) ∨
       (∃ i, t = TaskLike.fn i ∧ toTaskInstance t = ⟨i, true⟩))) := by
  constructor
  · intro hge
    unfold enqueueQ
    rw [if_pos]
    · rw [hm]
      exact ⟨rfl, rfl⟩
    · rw [hm]
      simp only [optNatTruthy, Option.getD_some, Bool.and_eq_true, decide_eq_true_eq]
      exact ⟨by omega, hge⟩
  · intro hlt
    refine ⟨?_, ?_⟩
    · unfold enqueueQ
      rw [if_neg]
      rw [hm]
      simp only [optNatTruthy, Option.getD_some, Bool.and_eq_true, decide_eq_true_eq]
      omega
    · cases t with
      | task i => exact Or.inl ⟨i, rfl, rfl⟩
      | fn i => exact Or.inr ⟨i, rfl, rfl⟩

/-- Witness queue: maxQueue 2, one queued and one running task. -/
def q9 : TaskQueue :=
  { maxQueue := some 2, concurrency := some 1, paused := false,
    queue := [{ id := 0, wrapped := false }], running := [{ id := 1, wrapped := false }] }

/-- Enqueueing a bare function on a full queue throws the limit error and
leaves the queue untouched; after one task finishes the same call succeeds
with a wrapping Task. -/
theorem claim9_maxQueue_witness :
    ((enqueueQ q9 (TaskLike.fn 5) false).1 =
       Except.error ("Queue limit (" ++ toString 2 ++ ") exceeded") ∧
     (enqueueQ q9 (TaskLike.fn 5) false).2 = q9) ∧
    (enqueueQ (qFinish q9 { id := 1, wrapped := false }) (TaskLike.fn 5) false).1 =
      Except.ok { id := 5, wrapped := true } := by
  constructor
  · exact (claim9_maxQueue q9 2 rfl (by decide) (TaskLike.fn 5) false).1 (by decide)
  · exact ((claim9_maxQueue (qFinish q9 { id := 1, wrapped := false }) 2 (by decide)
      (by decide) (TaskLike.fn 5) false).2 (by decide)).1

end PowerTasks
